import Mathlib

/-!
Formal model of the `ogc.bblocks` client library (register resolution and
semantic uplift), shallowly embedded from the Python sources
`ogc/bblocks/register.py`, `ogc/bblocks/semantic_uplift.py` and
`ogc/bblocks/util.py`, together with proofs of the specified properties.

Conventions used throughout:
* Python dictionaries are modelled as association lists (`List (String × α)`)
  with insertion order preserved; `lookupA` is first-match lookup, `updateA`
  is dict assignment (replace in place if the key exists, append otherwise).
* JSON/YAML structured data is modelled by the inductive type `Json`.
* External collaborators (network fetch, jq, pyshacl, rdflib) are modelled
  as explicit parameters; their invocations are recorded in event lists so
  that counting and ordering properties can be stated.
* Fallible operations return `Except`; recursion over the registry import
  graph is fuelled, with an adequacy theorem showing a concrete fuel bound
  suffices.
-/

/-- Structured JSON/YAML data, the payloads handled by the library. -/
inductive Json where
  | null : Json
  | bool : Bool → Json
  | num : Int → Json
  | str : String → Json
  | arr : List Json → Json
  | obj : List (String × Json) → Json

/-- First-match lookup in an association list (Python `dict.get` /
`dict[...]`, given that real Python dicts have unique keys). -/
def lookupA {α : Type} : List (String × α) → String → Option α
  | [], _ => none
  | (k, v) :: rest, key => if k = key then some v else lookupA rest key

/-- Python dict assignment `d[k] = v`: replaces the value in place when the
key is present, appends the pair at the end otherwise. -/
def updateA {α : Type} : List (String × α) → String → α → List (String × α)
  | [], key, v => [(key, v)]
  | (k, w) :: rest, key, v =>
    if k = key then (k, v) :: rest else (k, w) :: updateA rest key v

/-- Embedding of `_apply_jsonld_context(ld_context, data)`
(`semantic_uplift.py` lines 40-59).  `ldContext` is the building block's
resolved context document (a mapping); the function reads its
`@context` entry (an unguarded `ld_context['@context']` access in the
source, hence `none` when the key is absent) and merges it with `data`.
`none` is also returned when `data` is neither a sequence nor a mapping,
where the Python code raises a `TypeError`. -/
def applyJsonldContext (ldContext : List (String × Json)) (data : Json) :
    Option Json :=
  match lookupA ldContext "@context" with
  | none => none
  | some ctx =>
    match data with
    | .arr xs => some (.obj [("@context", ctx), ("@graph", .arr xs)])
    | .obj entries =>
      match lookupA entries "@context" with
      | some existingContext =>
        let jsonldData := entries.filter (fun kv => kv.1 ≠ "@context")
        let newContext :=
          ctx :: (match existingContext with
                  | .arr l => l
                  | e => [e])
        some (.obj (jsonldData ++ [("@context", Json.arr newContext)]))
      | none => some (.obj (("@context", ctx) :: entries))
    | _ => none

/-- C4: the context merger matches its specified case analysis.  Whenever the
building-block context document resolves `@context` to `ctx`:
(1) a sequence is wrapped as `{@context: ctx, @graph: data}` with the
sequence order unchanged; (2) a mapping without a `@context` key keeps all
its entries and gains the injected context; (3) a mapping with an existing
`@context` value keeps all other keys unchanged and its context becomes the
ordered sequence headed by `ctx`, followed by the elements of the existing
context when it was a sequence, or by the existing context as a single
element otherwise. -/
theorem c4_merge_context_case_analysis
    (ldContext : List (String × Json)) (ctx : Json)
    (hctx : lookupA ldContext "@context" = some ctx) :
    (∀ xs : List Json,
      applyJsonldContext ldContext (.arr xs) =
        some (.obj [("@context", ctx), ("@graph", .arr xs)])) ∧
    (∀ entries : List (String × Json),
      lookupA entries "@context" = none →
      applyJsonldContext ldContext (.obj entries) =
        some (.obj (("@context", ctx) :: entries))) ∧
    (∀ (entries : List (String × Json)) (existingContext : Json),
      lookupA entries "@context" = some existingContext →
      applyJsonldContext ldContext (.obj entries) =
        some (.obj (entries.filter (fun kv => kv.1 ≠ "@context") ++
          [("@context", Json.arr
            (ctx :: (match existingContext with
                     | .arr l => l
                     | e => [e])))]))) := by
  refine ⟨fun xs => ?_, fun entries h => ?_, fun entries e h => ?_⟩
  · simp [applyJsonldContext, hctx]
  · simp [applyJsonldContext, hctx, h]
  · simp [applyJsonldContext, hctx, h]

/-- Witness for `c4_merge_context_case_analysis` at a concrete context and
concrete inputs for all three cases. -/
theorem c4_merge_context_case_analysis_witness :
    lookupA [("@context", Json.str "bbctx")] "@context" = some (Json.str "bbctx") ∧
    applyJsonldContext [("@context", Json.str "bbctx")]
        (.obj [("@context", Json.str "http://ex/ctx"), ("name", Json.str "Alice")]) =
      some (.obj [("name", Json.str "Alice"),
        ("@context", Json.arr [Json.str "bbctx", Json.str "http://ex/ctx"])]) := by
  refine ⟨rfl, ?_⟩
  have h := (c4_merge_context_case_analysis
    [("@context", Json.str "bbctx")] (Json.str "bbctx") rfl).2.2
    [("@context", Json.str "http://ex/ctx"), ("name", Json.str "Alice")]
    (Json.str "http://ex/ctx") rfl
  simpa using h

/-!
### Mutation model for the context merger

`_apply_jsonld_context` receives its `data` argument by reference.  To state
the frame property (the input object is never mutated) we re-run the same
source lines over an explicit one-level heap: top-level Python objects live
at addresses, object contents are values.  The dict comprehension
`jsonld_data = {k: v for k, v in data.items() if k != '@context'}` allocates
a fresh object, and `jsonld_data['@context'] = new_context` assigns into
that fresh object only, exactly as in the source.
-/

/-- A heap-allocated Python object: a dict or a list. -/
inductive HVal where
  | dict : List (String × Json) → HVal
  | arr : List Json → HVal

/-- One-level heap: addresses to objects. -/
abbrev Heap := List (Nat × HVal)

/-- Address lookup in a heap. -/
def lookupH : Heap → Nat → Option HVal
  | [], _ => none
  | (k, v) :: rest, key => if k = key then some v else lookupH rest key

/-- An address unused by the heap (strictly above every allocated one). -/
def freshAddr (h : Heap) : Nat := (h.map Prod.fst).foldr max 0 + 1

/-- Embedding of `_apply_jsonld_context` with an explicit heap
(`semantic_uplift.py` lines 40-59): `dref` is the address of the `data`
argument; the result value is always a freshly allocated object. -/
def applyJsonldContextH (h : Heap) (ldContext : List (String × Json))
    (dref : Nat) : Option (Heap × Nat) :=
  match lookupA ldContext "@context" with
  | none => none
  | some ctx =>
    match lookupH h dref with
    | some (.arr xs) =>
      let a := freshAddr h
      some ((a, .dict [("@context", ctx), ("@graph", .arr xs)]) :: h, a)
    | some (.dict entries) =>
      match lookupA entries "@context" with
      | some existingContext =>
        let jsonldData := entries.filter (fun kv => kv.1 ≠ "@context")
        let newContext :=
          ctx :: (match existingContext with
                  | .arr l => l
                  | e => [e])
        let a := freshAddr h
        some ((a, .dict (updateA jsonldData "@context" (Json.arr newContext))) :: h, a)
      | none =>
        let a := freshAddr h
        some ((a, .dict (("@context", ctx) :: entries)) :: h, a)
    | none => none

/-- Every allocated address is strictly below `freshAddr`. -/
theorem mem_lt_freshAddr (h : Heap) (a : Nat) (ha : a ∈ h.map Prod.fst) :
    a < freshAddr h := by
  have : ∀ (l : List Nat) (k : Nat), k ∈ l → k ≤ l.foldr max 0 := by
    intro l
    induction l with
    | nil => intro k hk; cases hk
    | cons x xs ih =>
      intro k hk
      rcases List.mem_cons.mp hk with rfl | hk
      · exact Nat.le_max_left _ _
      · exact Nat.le_trans (ih k hk) (Nat.le_max_right _ _)
  exact Nat.lt_succ_of_le (this _ a ha)

/-- C8: the context merger never mutates any pre-existing object; in
particular the original input object keeps all its keys and its original
context value.  Every address allocated before the call maps to the same
object afterwards (the result lives at a fresh address). -/
theorem c8_merge_context_no_mutation
    (h : Heap) (ldContext : List (String × Json)) (dref : Nat)
    (h' : Heap) (r : Nat)
    (hrun : applyJsonldContextH h ldContext dref = some (h', r)) :
    (∀ a, a ∈ h.map Prod.fst → lookupH h' a = lookupH h a) ∧
    r ∉ h.map Prod.fst := by
  unfold applyJsonldContextH at hrun
  have key : ∀ (v : HVal),
      ((freshAddr h, v) :: h, freshAddr h) = (h', r) →
      (∀ a, a ∈ h.map Prod.fst → lookupH h' a = lookupH h a) ∧
      r ∉ h.map Prod.fst := by
    intro v hv
    injection hv with hv1 hv2
    subst hv1
    subst hv2
    constructor
    · intro a ha
      have hne : freshAddr h ≠ a := by
        intro hcontra
        exact absurd (mem_lt_freshAddr h a ha) (by simp [hcontra])
      simp [lookupH, hne]
    · intro hmem
      exact absurd (mem_lt_freshAddr h _ hmem) (by simp)
  cases hc : lookupA ldContext "@context" with
  | none => simp [hc] at hrun
  | some ctx =>
    cases hd : lookupH h dref with
    | none => simp [hc, hd] at hrun
    | some hv =>
      cases hv with
      | arr xs =>
        simp only [hc, hd] at hrun
        exact key _ (by simpa using hrun)
      | dict entries =>
        cases he : lookupA entries "@context" with
        | none =>
          simp only [hc, hd, he] at hrun
          exact key _ (by simpa using hrun)
        | some ex =>
          simp only [hc, hd, he] at hrun
          exact key _ (by simpa using hrun)

/-- Witness for `c8_merge_context_no_mutation`: a mapping with a string
context, merged; the input object at address 0 is unchanged afterwards. -/
theorem c8_merge_context_no_mutation_witness :
    applyJsonldContextH
      [(0, HVal.dict [("@context", Json.str "http://ex/ctx"),
                      ("name", Json.str "Alice")])]
      [("@context", Json.str "bbctx")] 0 =
      some ([(1, HVal.dict [("name", Json.str "Alice"),
                            ("@context", Json.arr [Json.str "bbctx",
                                                   Json.str "http://ex/ctx"])]),
             (0, HVal.dict [("@context", Json.str "http://ex/ctx"),
                            ("name", Json.str "Alice")])], 1) ∧
    lookupH [(1, HVal.dict [("name", Json.str "Alice"),
                            ("@context", Json.arr [Json.str "bbctx",
                                                   Json.str "http://ex/ctx"])]),
             (0, HVal.dict [("@context", Json.str "http://ex/ctx"),
                            ("name", Json.str "Alice")])] 0 =
      lookupH [(0, HVal.dict [("@context", Json.str "http://ex/ctx"),
                              ("name", Json.str "Alice")])] 0 :=
  ⟨rfl,
   (c8_merge_context_no_mutation
      [(0, HVal.dict [("@context", Json.str "http://ex/ctx"),
                      ("name", Json.str "Alice")])]
      [("@context", Json.str "bbctx")] 0
      [(1, HVal.dict [("name", Json.str "Alice"),
                      ("@context", Json.arr [Json.str "bbctx",
                                             Json.str "http://ex/ctx"])]),
       (0, HVal.dict [("@context", Json.str "http://ex/ctx"),
                      ("name", Json.str "Alice")])] 1 rfl).1 0 (by simp)⟩

/-!
### Semantic uplift pipeline

Embedding of `_apply_uplift_steps` and `uplift_json`
(`semantic_uplift.py` lines 14-37 and 62-71).  The graph representation and
the external collaborators (jq, pyshacl, rdflib SPARQL, `fetch_url`) are
parameters; collaborator invocations and pipeline milestones are recorded
as events.
-/

/-- Stage tag of an uplift step (`SemanticUpliftAdditionalStepStage`,
`register.py` lines 81-83). -/
inductive StageE where
  | pre
  | post
deriving Repr, DecidableEq

/-- An uplift step (`SemanticUpliftAdditionalStep`, `register.py` lines
85-90): a type tag that is a plain string, a stage, and optional `ref`
and `code`. -/
structure Step where
  type : String
  stage : StageE
  ref : Option String := none
  code : Option String := none
deriving Repr, DecidableEq

/-- Data flowing through the pipeline: a tree-structured record before
graph materialization, a graph afterwards. -/
inductive UData (G : Type) where
  | tree : Json → UData G
  | graph : G → UData G

/-- Observable events of one uplift run. -/
inductive UEvent where
  | fetchRef (url : String)
  | stepApplied (t : String) (stage : StageE)
  | mergeContext (input : Json)
  | graphParse (doc : Json)

/-- External collaborators of the uplift pipeline, parameterized by the
graph type `G`: `jq.compile(code).input_value(data).first()`,
`pyshacl.validate(..., in_place=True)`, `Graph.update`, `Graph.query(...).graph`,
`Graph().parse(data=..., format='json-ld', base=...)` and `fetch_url`. -/
structure Collab (G : Type) where
  jqFirst : String → Json → Json
  shaclValidate : String → G → G
  sparqlUpdate : String → G → G
  sparqlConstruct : String → G → G
  parseJsonLd : Json → Option String → G
  fetchUrl : String → String

/-- Errors raised while applying uplift steps. -/
inductive UErr where
  | notImplemented (t : String)
  | typeMismatch
  | codeError
  | contextKeyError
deriving Repr, DecidableEq

/-- Python falsiness of an optional string (`not step_code`): absent or
empty. -/
def falsyS : Option String → Bool
  | none => true
  | some s => s == ""

/-- Step code resolution (`semantic_uplift.py` lines 18-22): use inline
`code` unless it is falsy and `ref` is set, in which case the code is
fetched from `ref` (once per application, not cached). -/
def resolveStepCode {G : Type} (c : Collab G) (step : Step) :
    Option String × List UEvent :=
  if falsyS step.code && !falsyS step.ref then
    match step.ref with
    | some r => (some (c.fetchUrl r), [.fetchRef r])
    | none => (step.code, [])
  else (step.code, [])

/-- The four step types dispatched by `_apply_uplift_steps`. -/
def knownUpliftTypes : List String :=
  ["shacl", "sparql-update", "sparql-construct", "jq"]

/-- One step application: the dispatch chain of `_apply_uplift_steps`
(`semantic_uplift.py` lines 18-35).  An unknown type raises
`NotImplementedError` regardless of the current data; a known type applied
to the wrong data representation fails inside the collaborator
(`typeMismatch`); absent code fails inside the collaborator (`codeError`). -/
def applyStep {G : Type} (c : Collab G) (step : Step) (d : UData G) :
    Except UErr (UData G) × List UEvent :=
  let r := resolveStepCode c step
  let ev := r.2 ++ [.stepApplied step.type step.stage]
  if step.type = "shacl" then
    match r.1 with
    | none => (.error .codeError, ev)
    | some cd =>
      match d with
      | .graph g => (.ok (.graph (c.shaclValidate cd g)), ev)
      | .tree _ => (.error .typeMismatch, ev)
  else if step.type = "sparql-update" then
    match r.1 with
    | none => (.error .codeError, ev)
    | some cd =>
      match d with
      | .graph g => (.ok (.graph (c.sparqlUpdate cd g)), ev)
      | .tree _ => (.error .typeMismatch, ev)
  else if step.type = "sparql-construct" then
    match r.1 with
    | none => (.error .codeError, ev)
    | some cd =>
      match d with
      | .graph g => (.ok (.graph (c.sparqlConstruct cd g)), ev)
      | .tree _ => (.error .typeMismatch, ev)
  else if step.type = "jq" then
    match r.1 with
    | none => (.error .codeError, ev)
    | some cd =>
      match d with
      | .tree j => (.ok (.tree (c.jqFirst cd j)), ev)
      | .graph _ => (.error .typeMismatch, ev)
  else (.error (.notImplemented step.type), ev)

/-- The step loop of `_apply_uplift_steps` (`semantic_uplift.py` lines
14-37): apply, in declaration order, every step whose stage matches,
threading the current data; an error aborts. -/
def applyUpliftSteps {G : Type} (c : Collab G) (steps : List Step)
    (stage : StageE) (d : UData G) : Except UErr (UData G) × List UEvent :=
  match steps with
  | [] => (.ok d, [])
  | s :: rest =>
    if s.stage = stage then
      match applyStep c s d with
      | (.ok d', ev) =>
        let r := applyUpliftSteps c rest stage d'
        (r.1, ev ++ r.2)
      | (.error e, ev) => (.error e, ev)
    else applyUpliftSteps c rest stage d

/-- Embedding of `uplift_json` (`semantic_uplift.py` lines 62-71) for a
full record whose steps and resolved JSON-LD context are given.  Note that,
as in the source (line 68), the value produced by the `pre` step phase is
discarded: the context merge and graph parse receive the original `data`. -/
def uplift_json {G : Type} (c : Collab G) (steps : List Step)
    (ldContext : List (String × Json)) (data : Json)
    (baseUri : Option String) : Except UErr (UData G) × List UEvent :=
  match applyUpliftSteps c steps .pre (.tree data) with
  | (.error e, ev) => (.error e, ev)
  | (.ok _, ev1) =>
    match applyJsonldContext ldContext data with
    | none => (.error .contextKeyError, ev1)
    | some jsonldData =>
      let g := c.parseJsonLd jsonldData baseUri
      let r := applyUpliftSteps c steps .post (.graph g)
      (r.1, ev1 ++ [.mergeContext data, .graphParse jsonldData] ++ r.2)

/-- Splitting the step loop over a concatenation whose first part
succeeds. -/
theorem applyUpliftSteps_append {G : Type} (c : Collab G)
    (l₁ l₂ : List Step) (stage : StageE) :
    ∀ (d d' : UData G) (ev : List UEvent),
    applyUpliftSteps c l₁ stage d = (.ok d', ev) →
    applyUpliftSteps c (l₁ ++ l₂) stage d =
      ((applyUpliftSteps c l₂ stage d').1,
       ev ++ (applyUpliftSteps c l₂ stage d').2) := by
  induction l₁ with
  | nil =>
    intro d d' ev h
    simp only [applyUpliftSteps] at h
    injection h with h1 h2
    injection h1 with h1
    subst h1; subst h2
    simp [applyUpliftSteps]
  | cons s rest ih =>
    intro d d' ev h
    simp only [applyUpliftSteps, List.cons_append] at h ⊢
    by_cases hs : s.stage = stage
    · simp only [hs, if_true] at h ⊢
      cases hstep : applyStep c s d with
      | mk res ev0 =>
        cases res with
        | ok d0 =>
          simp only [hstep] at h ⊢
          cases hrest : applyUpliftSteps c rest stage d0 with
          | mk res1 ev1 =>
            simp only [hrest] at h
            cases res1 with
            | ok dd =>
              injection h with h1 h2
              injection h1 with h1
              have hres : applyUpliftSteps c rest stage d0 = (.ok d', ev1) := by
                rw [hrest, h1]
              have hih := ih d0 d' ev1 hres
              simp only [List.append_eq]
              rw [hih]
              rw [← h2]
              simp [List.append_assoc]
            | error e => simp at h
        | error e =>
          simp only [hstep] at h
          simp at h
    · simp only [hs, if_false] at h ⊢
      exact ih d d' ev h

/-- Step application emits exactly the code-resolution events followed by
one step-application event, in every dispatch branch. -/
theorem applyStep_events {G : Type} (c : Collab G) (s : Step) (d : UData G) :
    (applyStep c s d).2 =
      (resolveStepCode c s).2 ++ [UEvent.stepApplied s.type s.stage] := by
  simp only [applyStep]
  repeat' split
  all_goals rfl

/-- Code resolution emits no event or a single fetch event. -/
theorem resolveStepCode_events {G : Type} (c : Collab G) (s : Step) :
    (resolveStepCode c s).2 = [] ∨
      ∃ u, (resolveStepCode c s).2 = [UEvent.fetchRef u] := by
  unfold resolveStepCode
  split
  · split
    · right; exact ⟨_, rfl⟩
    · left; rfl
  · left; rfl

/-- Events of one step application are fetches or step applications. -/
theorem applyStep_event_mem {G : Type} (c : Collab G) (s : Step) (d : UData G)
    (e : UEvent) (he : e ∈ (applyStep c s d).2) :
    (∃ u, e = UEvent.fetchRef u) ∨ ∃ t st, e = UEvent.stepApplied t st := by
  rw [applyStep_events] at he
  rcases List.mem_append.mp he with h | h
  · rcases resolveStepCode_events c s with hr | ⟨u, hr⟩
    · rw [hr] at h; cases h
    · rw [hr] at h
      rcases List.mem_singleton.mp h with rfl
      exact Or.inl ⟨u, rfl⟩
  · rcases List.mem_singleton.mp h with rfl
    exact Or.inr ⟨_, _, rfl⟩

/-- Events of the step loop are fetches or step applications — in
particular neither a context merge nor a graph parse happens inside it. -/
theorem applyUpliftSteps_event_mem {G : Type} (c : Collab G)
    (steps : List Step) (stage : StageE) :
    ∀ (d : UData G) (e : UEvent), e ∈ (applyUpliftSteps c steps stage d).2 →
      (∃ u, e = UEvent.fetchRef u) ∨ ∃ t st, e = UEvent.stepApplied t st := by
  induction steps with
  | nil => intro d e he; simp [applyUpliftSteps] at he
  | cons s rest ih =>
    intro d e he
    simp only [applyUpliftSteps] at he
    by_cases hs : s.stage = stage
    · simp only [hs, if_true] at he
      cases hstep : applyStep c s d with
      | mk res ev0 =>
        rw [hstep] at he
        have hev0 : ∀ e' ∈ ev0, (∃ u, e' = UEvent.fetchRef u) ∨
            ∃ t st, e' = UEvent.stepApplied t st := by
          intro e' he'
          exact applyStep_event_mem c s d e' (by rw [hstep]; exact he')
        cases res with
        | ok d0 =>
          simp only at he
          rcases List.mem_append.mp he with h | h
          · exact hev0 e h
          · exact ih d0 e h
        | error err =>
          simp only at he
          exact hev0 e he
    · simp only [hs, if_false] at he
      exact ih d e he

/-- An unknown step type raises `NotImplementedError` at application time,
whatever the current data representation. -/
theorem applyStep_unknown_type {G : Type} (c : Collab G) (s : Step)
    (d : UData G) (h : s.type ∉ knownUpliftTypes) :
    (applyStep c s d).1 = .error (.notImplemented s.type) := by
  simp only [knownUpliftTypes, List.mem_cons, List.not_mem_nil, or_false] at h
  push_neg at h
  obtain ⟨h1, h2, h3, h4⟩ := h
  simp [applyStep, h1, h2, h3, h4]

/-- The step loop halts with `NotImplementedError` as soon as it reaches a
matching-stage step of unknown type. -/
theorem applyUpliftSteps_head_unknown {G : Type} (c : Collab G) (bad : Step)
    (s₂ : List Step) (stage : StageE) (d : UData G)
    (hstage : bad.stage = stage) (hbad : bad.type ∉ knownUpliftTypes) :
    applyUpliftSteps c (bad :: s₂) stage d =
      (.error (.notImplemented bad.type), (applyStep c bad d).2) := by
  have h1 := applyStep_unknown_type c bad d hbad
  cases hstep : applyStep c bad d with
  | mk res ev0 =>
    rw [hstep] at h1
    have h1' : res = Except.error (UErr.notImplemented bad.type) := h1
    subst h1'
    simp [applyUpliftSteps, hstage, hstep]

/-- C5: a step whose type is outside the four known types makes the uplift
call fail with `NotImplementedError` at the point the step is applied.  If
the step is tagged `pre` (and the preceding `pre` steps succeed) the
failure happens before any context merge: no merge event is emitted at all.
If it is tagged `post` (and the earlier phases succeed) the failure happens
after graph materialization: the graph-parse event is in the emitted
trace. -/
theorem c5_unsupported_step_type {G : Type} (c : Collab G)
    (s₁ s₂ : List Step) (bad : Step)
    (hbad : bad.type ∉ knownUpliftTypes)
    (ldContext : List (String × Json)) (data : Json) (baseUri : Option String) :
    (bad.stage = .pre →
      ∀ (d' : UData G) (ev' : List UEvent),
      applyUpliftSteps c s₁ .pre (.tree data) = (.ok d', ev') →
      (uplift_json c (s₁ ++ bad :: s₂) ldContext data baseUri).1 =
        .error (.notImplemented bad.type) ∧
      ∀ j, UEvent.mergeContext j ∉
        (uplift_json c (s₁ ++ bad :: s₂) ldContext data baseUri).2) ∧
    (bad.stage = .post →
      ∀ (dpre : UData G) (evpre : List UEvent),
      applyUpliftSteps c (s₁ ++ bad :: s₂) .pre (.tree data) = (.ok dpre, evpre) →
      ∀ jd, applyJsonldContext ldContext data = some jd →
      ∀ (d₂ : UData G) (ev₂ : List UEvent),
      applyUpliftSteps c s₁ .post (.graph (c.parseJsonLd jd baseUri)) =
        (.ok d₂, ev₂) →
      (uplift_json c (s₁ ++ bad :: s₂) ldContext data baseUri).1 =
        .error (.notImplemented bad.type) ∧
      UEvent.graphParse jd ∈
        (uplift_json c (s₁ ++ bad :: s₂) ldContext data baseUri).2) := by
  constructor
  · intro hstage d' ev' hpre
    have hsplit := applyUpliftSteps_append c s₁ (bad :: s₂) .pre
      (.tree data) d' ev' hpre
    have hhead := applyUpliftSteps_head_unknown c bad s₂ .pre d' hstage hbad
    have hfull : applyUpliftSteps c (s₁ ++ bad :: s₂) .pre (.tree data) =
        (.error (.notImplemented bad.type),
         ev' ++ (applyStep c bad d').2) := by
      rw [hsplit, hhead]
    constructor
    · simp only [uplift_json, hfull]
    · intro j hj
      simp only [uplift_json, hfull] at hj
      rcases List.mem_append.mp hj with hj | hj
      · rcases applyUpliftSteps_event_mem c s₁ .pre (.tree data)
          (UEvent.mergeContext j) (by rw [hpre]; exact hj) with ⟨u, h⟩ | ⟨t, st, h⟩
        · exact UEvent.noConfusion h
        · exact UEvent.noConfusion h
      · rcases applyStep_event_mem c bad d' (UEvent.mergeContext j) hj
          with ⟨u, h⟩ | ⟨t, st, h⟩
        · exact UEvent.noConfusion h
        · exact UEvent.noConfusion h
  · intro hstage dpre evpre hpre jd hjd d₂ ev₂ hpost
    have hsplit := applyUpliftSteps_append c s₁ (bad :: s₂) .post
      (.graph (c.parseJsonLd jd baseUri)) d₂ ev₂ hpost
    have hhead := applyUpliftSteps_head_unknown c bad s₂ .post d₂ hstage hbad
    have hfull : applyUpliftSteps c (s₁ ++ bad :: s₂) .post
        (.graph (c.parseJsonLd jd baseUri)) =
        (.error (.notImplemented bad.type),
         ev₂ ++ (applyStep c bad d₂).2) := by
      rw [hsplit, hhead]
    constructor
    · simp only [uplift_json, hpre, hjd, hfull]
    · simp only [uplift_json, hpre, hjd, hfull]
      simp

/-- Witness for `c5_unsupported_step_type`: a pipeline whose only step has
the unknown type `frobnicate` at the `pre` stage fails with
`NotImplementedError` before any context merge. -/
theorem c5_unsupported_step_type_witness :
    (Step.mk "frobnicate" .pre none (some "x")).type ∉ knownUpliftTypes ∧
    (uplift_json (G := Nat)
      { jqFirst := fun _ j => j, shaclValidate := fun _ g => g,
        sparqlUpdate := fun _ g => g, sparqlConstruct := fun _ g => g,
        parseJsonLd := fun _ _ => 0, fetchUrl := fun _ => "" }
      [Step.mk "frobnicate" .pre none (some "x")]
      [("@context", Json.str "bbctx")] Json.null none).1 =
      .error (.notImplemented "frobnicate") := by
  refine ⟨by decide, ?_⟩
  exact ((c5_unsupported_step_type
    { jqFirst := fun _ j => j, shaclValidate := fun _ g => g,
      sparqlUpdate := fun _ g => g, sparqlConstruct := fun _ g => g,
      parseJsonLd := fun _ _ => 0, fetchUrl := fun _ => "" }
    [] [] (Step.mk "frobnicate" .pre none (some "x")) (by decide)
    [("@context", Json.str "bbctx")] Json.null none).1 rfl
    (.tree Json.null) [] rfl).1

/-- Collaborator instance over `G := Nat` whose jq engine rewrites any
input to the string `"rewritten"`, used to evaluate the pipeline on
concrete inputs. -/
def evalCollab : Collab Nat :=
  { jqFirst := fun _ _ => Json.str "rewritten"
    shaclValidate := fun _ g => g
    sparqlUpdate := fun _ g => g
    sparqlConstruct := fun _ g => g
    parseJsonLd := fun _ _ => 0
    fetchUrl := fun _ => "" }

/-- C1 fails on the code: `uplift_json` discards the value produced by the
`pre` step phase (`semantic_uplift.py` line 68 does not rebind `data`), so
the document merged with the resolved context is the ORIGINAL `rawData`,
not the output of the `pre` steps.  Concretely, with a single `pre`-stage
`jq` step that rewrites `{"name": "Alice"}` to the string `"rewritten"`:
the `pre` phase produces `"rewritten"`, yet the merge input recorded by the
run is the original object and the parsed document is the merge of the
original object — while `"rewritten"` differs from that object. -/
theorem c1_pre_step_output_discarded :
    (applyUpliftSteps evalCollab [Step.mk "jq" .pre none (some ".x")] .pre
        (.tree (Json.obj [("name", Json.str "Alice")]))).1 =
      .ok (.tree (Json.str "rewritten")) ∧
    (uplift_json evalCollab [Step.mk "jq" .pre none (some ".x")]
        [("@context", Json.str "bbctx")]
        (Json.obj [("name", Json.str "Alice")]) none).2 =
      [UEvent.stepApplied "jq" .pre,
       UEvent.mergeContext (Json.obj [("name", Json.str "Alice")]),
       UEvent.graphParse (Json.obj [("@context", Json.str "bbctx"),
                                    ("name", Json.str "Alice")])] ∧
    Json.str "rewritten" ≠ Json.obj [("name", Json.str "Alice")] :=
  ⟨rfl, rfl, fun h => Json.noConfusion h⟩

/-!
### Record model and load-time validation

Embedding of the dataclasses of `register.py` and of the
`dacite.from_dict` casts applied when documents are consumed.  Raw
documents are the (already key-normalized) structured mappings delivered
by the fetch collaborator; enumerated fields arrive as raw strings and are
cast to their closed enums, an unknown value aborting the load.
-/

/-- The closed lifecycle-status set (`Status`, `register.py` lines 35-43). -/
inductive StatusE where
  | retired
  | superseded
  | experimental
  | stable
  | underDevelopment
  | invalid
  | reserved
  | submitted
deriving Repr, DecidableEq

/-- The cast `Status(value)` performed by dacite: unknown values raise. -/
def StatusE.ofString : String → Option StatusE
  | "retired" => some .retired
  | "superseded" => some .superseded
  | "experimental" => some .experimental
  | "stable" => some .stable
  | "under-development" => some .underDevelopment
  | "invalid" => some .invalid
  | "reserved" => some .reserved
  | "submitted" => some .submitted
  | _ => none

/-- The closed classification set (`ItemClass`, `register.py` lines
98-107). -/
inductive ItemClassE where
  | schema
  | datatype
  | path
  | parameter
  | header
  | cookie
  | response
  | api
  | model
deriving Repr, DecidableEq

/-- The cast `ItemClass(value)` performed by dacite. -/
def ItemClassE.ofString : String → Option ItemClassE
  | "schema" => some .schema
  | "datatype" => some .datatype
  | "path" => some .path
  | "parameter" => some .parameter
  | "header" => some .header
  | "cookie" => some .cookie
  | "response" => some .response
  | "api" => some .api
  | "model" => some .model
  | _ => none

/-- The cast `SemanticUpliftAdditionalStepStage(value)` performed by
dacite (`register.py` lines 81-83). -/
def StageE.ofString : String → Option StageE
  | "pre" => some .pre
  | "post" => some .post
  | _ => none

/-- `DocumentationEntry` (`register.py` lines 76-79). -/
structure DocEntry where
  mediatype : String
  url : String
deriving Repr, DecidableEq

/-- Raw summary item document: the fields of `BuildingBlockSummary`
involved in the verified behaviors, with enumerated fields as raw
strings.  Other fields are carried by real documents but are irrelevant
to the resolvers modelled here. -/
structure SummaryDoc where
  itemIdentifier : String
  name : String
  status : Option String := none
  itemClass : Option String := none
  ldContext : Option String := none
  schema : List (String × String) := []
  documentation : List (String × DocEntry) := []
deriving Repr, DecidableEq

/-- Raw uplift step document (`semanticUplift.additionalSteps` entries of
a full-record document): `type`, `stage` and optionally `ref`/`code`. -/
structure StepDoc where
  type : String
  stage : String
  ref : Option String := none
  code : Option String := none
deriving Repr, DecidableEq

/-- Raw full-record document: the summary fields plus the semantic uplift
steps (`BuildingBlock`, `register.py` lines 170-177). -/
structure BBDoc where
  base : SummaryDoc
  additionalSteps : List StepDoc := []
deriving Repr, DecidableEq

/-- Parsed summary record (`BuildingBlockSummary`, `register.py` lines
110-146), with its `source_register` back-reference (a register URL;
`none` before the loader sets it). -/
structure Summary where
  itemIdentifier : String
  name : String
  status : Option StatusE
  itemClass : Option ItemClassE
  ldContext : Option String
  schema : List (String × String)
  documentation : List (String × DocEntry)
  sourceRegister : Option String
deriving Repr, DecidableEq

/-- Parsed full record (`BuildingBlock`): summary fields, the embedded
summary reference set by `get_item_full`, and the uplift steps. -/
structure BBlock where
  base : Summary
  summaryRef : Option Summary
  steps : List Step
deriving Repr, DecidableEq

/-- Errors of register loading and record resolution. -/
inductive LoadErr where
  | fetchFail (url : String)
  | badEnumValue (v : String)
  | keyError (k : String)
  | wrongShape (url : String)
  | outOfFuel
deriving Repr, DecidableEq


/-- Dacite cast of an optional status string. -/
def castStatus : Option String → Except LoadErr (Option StatusE)
  | none => .ok none
  | some s =>
    match StatusE.ofString s with
    | some v => .ok (some v)
    | none => .error (.badEnumValue s)

/-- Dacite cast of an optional item-class string. -/
def castItemClass : Option String → Except LoadErr (Option ItemClassE)
  | none => .ok none
  | some s =>
    match ItemClassE.ofString s with
    | some v => .ok (some v)
    | none => .error (.badEnumValue s)

/-- `dacite.from_dict(BuildingBlockSummary, snake_keys(data),
config=Config(cast=[Status, ItemClass, set]))` (`register.py` lines
250-253): the status and item-class strings are cast to their closed
enums; an unknown value aborts the load of the document. -/
def parseSummary (d : SummaryDoc) : Except LoadErr Summary :=
  match castStatus d.status with
  | .error e => .error e
  | .ok status =>
    match castItemClass d.itemClass with
    | .error e => .error e
    | .ok itemClass =>
      .ok { itemIdentifier := d.itemIdentifier, name := d.name,
            status := status, itemClass := itemClass,
            ldContext := d.ldContext, schema := d.schema,
            documentation := d.documentation, sourceRegister := none }

/-- Dacite cast of one step document (`get_item_full` casts
`SemanticUpliftAdditionalStepStage`, `register.py` lines 222-224): the
`stage` string is cast to the closed stage enum, while `type` is declared
`str` in the dataclass and is accepted verbatim. -/
def parseStep (d : StepDoc) : Except LoadErr Step :=
  match StageE.ofString d.stage with
  | some st => .ok { type := d.type, stage := st, ref := d.ref, code := d.code }
  | none => .error (.badEnumValue d.stage)

/-- Cast of the step list of a full-record document. -/
def parseSteps : List StepDoc → Except LoadErr (List Step)
  | [] => .ok []
  | d :: rest =>
    match parseStep d with
    | .error e => .error e
    | .ok s =>
      match parseSteps rest with
      | .error e => .error e
      | .ok ss => .ok (s :: ss)

/-- `dacite.from_dict(BuildingBlock, snake_keys(data), config=Config(cast=
[Status, ItemClass, SemanticUpliftAdditionalStepStage, set]))`
(`register.py` lines 222-224). -/
def parseBB (d : BBDoc) : Except LoadErr BBlock :=
  match parseSummary d.base with
  | .error e => .error e
  | .ok base =>
    match parseSteps d.additionalSteps with
    | .error e => .error e
    | .ok steps => .ok { base := base, summaryRef := none, steps := steps }

/-- Step-list parsing fails when any element fails. -/
theorem parseSteps_error_of_mem :
    ∀ (l : List StepDoc) (x : StepDoc), x ∈ l → (parseStep x).isOk = false →
    (parseSteps l).isOk = false := by
  intro l
  induction l with
  | nil => intro x hx; cases hx
  | cons y ys ih =>
    intro x hx hfail
    rcases List.mem_cons.mp hx with rfl | hx
    · cases hfy : parseStep x with
      | error e => simp [parseSteps, hfy, Except.isOk, Except.toBool]
      | ok b => rw [hfy] at hfail; simp [Except.isOk, Except.toBool] at hfail
    · cases hfy : parseStep y with
      | error e => simp [parseSteps, hfy, Except.isOk, Except.toBool]
      | ok b =>
        have hys := ih x hx hfail
        cases hm : parseSteps ys with
        | error e => simp [parseSteps, hfy, hm, Except.isOk, Except.toBool]
        | ok bs => rw [hm] at hys; simp [Except.isOk, Except.toBool] at hys

/-- C6 (amended): the `status`, item-class and step-`stage` enumerated
fields are validated against their closed sets at load time, and loading
the document fails when any of them holds an out-of-set value.  (The step
`type` field, by contrast, is a plain string that is not validated at load
time; see the counterexample theorem.) -/
theorem c6_enum_fields_validated_at_load :
    (∀ (d : SummaryDoc) (s : String), d.status = some s →
      StatusE.ofString s = none → (parseSummary d).isOk = false) ∧
    (∀ (d : SummaryDoc) (s : String), d.itemClass = some s →
      ItemClassE.ofString s = none → (parseSummary d).isOk = false) ∧
    (∀ (bd : BBDoc) (sd : StepDoc), sd ∈ bd.additionalSteps →
      StageE.ofString sd.stage = none → (parseBB bd).isOk = false) := by
  refine ⟨?_, ?_, ?_⟩
  · intro d s hs hbad
    simp [parseSummary, castStatus, hs, hbad, Except.isOk, Except.toBool]
  · intro d s hs hbad
    cases hst : castStatus d.status with
    | error e => simp [parseSummary, hst, Except.isOk, Except.toBool]
    | ok v =>
      simp [parseSummary, hst, castItemClass, hs, hbad, Except.isOk,
        Except.toBool]
  · intro bd sd hmem hbad
    have hstep : (parseStep sd).isOk = false := by
      simp [parseStep, hbad, Except.isOk, Except.toBool]
    have hsteps := parseSteps_error_of_mem bd.additionalSteps sd hmem hstep
    cases hsum : parseSummary bd.base with
    | error e => simp [parseBB, hsum, Except.isOk, Except.toBool]
    | ok b =>
      cases hm : parseSteps bd.additionalSteps with
      | error e => simp [parseBB, hsum, hm, Except.isOk, Except.toBool]
      | ok bs => rw [hm] at hsteps; simp [Except.isOk, Except.toBool] at hsteps

/-- Witness for `c6_enum_fields_validated_at_load`: a summary document
whose status is the out-of-set value `bogus` fails to load. -/
theorem c6_enum_fields_validated_at_load_witness :
    ({ itemIdentifier := "x", name := "X", status := some "bogus" } :
      SummaryDoc).status = some "bogus" ∧
    StatusE.ofString "bogus" = none ∧
    (parseSummary { itemIdentifier := "x", name := "X",
                    status := some "bogus" }).isOk = false :=
  ⟨rfl, rfl,
   c6_enum_fields_validated_at_load.1
     { itemIdentifier := "x", name := "X", status := some "bogus" }
     "bogus" rfl rfl⟩

/-- C6 is false as stated for the step `type` field: a full-record
document whose only step has the out-of-set type `bogus-step-type` loads
successfully (`type` is a plain `str` in `SemanticUpliftAdditionalStep`
and the `dacite` cast list does not touch it), instead of failing at load
time as the claim requires. -/
theorem c6_step_type_not_validated_counterexample :
    parseBB { base := { itemIdentifier := "x", name := "X" },
              additionalSteps := [{ type := "bogus-step-type", stage := "pre" }] } =
      .ok { base := { itemIdentifier := "x", name := "X", status := none,
                      itemClass := none, ldContext := none, schema := [],
                      documentation := [], sourceRegister := none },
            summaryRef := none,
            steps := [{ type := "bogus-step-type", stage := .pre,
                        ref := none, code := none }] } := rfl

/-!
### Resource cache and full-record resolver

Embedding of `BuildingBlockSummary._get_cached_yaml`,
`BuildingBlockRegister.get_item_summary` and
`BuildingBlockRegister.get_item_full` (`register.py` lines 148-231).
Registers refer to each other by URL; the fetch collaborator of a register
is modelled as the table of documents it serves, and each operation
returns the list of URLs it fetched.
-/

/-- Values returned by the fetch collaborator (`fetch_yaml`): a full-record
document or other structured data (schemas, contexts). -/
inductive FetchVal where
  | bb (d : BBDoc)
  | data (j : Json)

/-- A loaded register (`BuildingBlockRegister`, `register.py` lines
180-202) as needed by the resolvers: its summary mapping, and its
flattened imported registers (by URL), its two caches and its fetch
collaborator table. -/
structure RReg where
  bblocks : List (String × Summary)
  importedRegisters : List String
  urlCache : List (String × FetchVal)
  bblocksCache : List (String × BBlock)
  loader : List (String × FetchVal)

/-- The register graph: registers by URL (Python object references are
modelled as URLs, each register being created once per URL). -/
structure RState where
  regs : List (String × RReg)

/-- Assigning a key makes it resolve to the assigned value. -/
theorem lookupA_updateA_self {α : Type} :
    ∀ (l : List (String × α)) (k : String) (v : α),
    lookupA (updateA l k v) k = some v := by
  intro l k v
  induction l with
  | nil => simp [updateA, lookupA]
  | cons p rest ih =>
    obtain ⟨a, w⟩ := p
    by_cases h : a = k
    · simp [updateA, h, lookupA]
    · simp [updateA, h, lookupA, ih]

/-- Assigning a key leaves other keys' resolutions unchanged. -/
theorem lookupA_updateA_ne {α : Type} :
    ∀ (l : List (String × α)) (k : String) (v : α) (k' : String), k ≠ k' →
    lookupA (updateA l k v) k' = lookupA l k' := by
  intro l k v k' hk
  induction l with
  | nil => simp [updateA, lookupA, hk]
  | cons p rest ih =>
    obtain ⟨a, w⟩ := p
    by_cases h : a = k
    · subst h
      simp [updateA, lookupA, hk]
    · simp [updateA, h, lookupA, ih]

/-- `BuildingBlockSummary._get_cached_yaml` (`register.py` lines 148-156),
run against the summary's source register: a falsy URL resolves to `None`
without fetching; a cache hit returns the cached value; otherwise the
fetch collaborator is invoked, the result stored keyed by the URL and
returned.  The third component lists the URLs fetched by the call. -/
def getCachedYaml (reg : RReg) (url : Option String) :
    Except LoadErr (Option FetchVal × RReg × List String) :=
  match url with
  | none => .ok (none, reg, [])
  | some u =>
    if u = "" then .ok (none, reg, [])
    else
      match lookupA reg.urlCache u with
      | some v => .ok (some v, reg, [])
      | none =>
        match lookupA reg.loader u with
        | none => .error (.fetchFail u)
        | some v =>
          .ok (some v, { reg with urlCache := updateA reg.urlCache u v }, [u])

/-- C7: the resource cache resolves an absent URL to null without invoking
the fetch collaborator; the first lookup of a concrete URL invokes the
collaborator, stores the result keyed by that URL and returns it; and any
second lookup of the same URL returns the same value without fetching
again — one fetch at most happens across the two calls. -/
theorem c7_resource_cache_fetch_once (reg : RReg) (u : String) (hu : u ≠ "") :
    getCachedYaml reg none = .ok (none, reg, []) ∧
    (∀ v, lookupA reg.urlCache u = none → lookupA reg.loader u = some v →
      getCachedYaml reg (some u) =
        .ok (some v, { reg with urlCache := updateA reg.urlCache u v }, [u])) ∧
    (∀ res reg1 log1, getCachedYaml reg (some u) = .ok (res, reg1, log1) →
      getCachedYaml reg1 (some u) = .ok (res, reg1, []) ∧ log1.length ≤ 1) := by
  refine ⟨rfl, ?_, ?_⟩
  · intro v hmiss hload
    simp [getCachedYaml, hu, hmiss, hload]
  · intro res reg1 log1 h
    simp only [getCachedYaml, hu, if_neg] at h
    cases hc : lookupA reg.urlCache u with
    | some v =>
      rw [hc] at h
      simp only [Except.ok.injEq, Prod.mk.injEq] at h
      obtain ⟨rfl, rfl, rfl⟩ := h
      constructor
      · simp [getCachedYaml, hu, hc]
      · simp
    | none =>
      rw [hc] at h
      cases hl : lookupA reg.loader u with
      | none => rw [hl] at h; exact Except.noConfusion h
      | some v =>
        rw [hl] at h
        simp only [Except.ok.injEq, Prod.mk.injEq] at h
        obtain ⟨rfl, rfl, rfl⟩ := h
        constructor
        · simp [getCachedYaml, hu, lookupA_updateA_self]
        · simp

/-- Witness for `c7_resource_cache_fetch_once` on a concrete register with
an empty cache: the first lookup fetches and stores, the second returns
the cached value without fetching. -/
theorem c7_resource_cache_fetch_once_witness :
    ("http://ex/schema.yaml" : String) ≠ "" ∧
    getCachedYaml
      { bblocks := [], importedRegisters := [], urlCache := [],
        bblocksCache := [],
        loader := [("http://ex/schema.yaml", FetchVal.data Json.null)] }
      (some "http://ex/schema.yaml") =
      .ok (some (FetchVal.data Json.null),
           { bblocks := [], importedRegisters := [],
             urlCache := [("http://ex/schema.yaml", FetchVal.data Json.null)],
             bblocksCache := [],
             loader := [("http://ex/schema.yaml", FetchVal.data Json.null)] },
           ["http://ex/schema.yaml"]) := by
  refine ⟨by decide, ?_⟩
  exact (c7_resource_cache_fetch_once
    { bblocks := [], importedRegisters := [], urlCache := [],
      bblocksCache := [],
      loader := [("http://ex/schema.yaml", FetchVal.data Json.null)] }
    "http://ex/schema.yaml" (by decide)).2.1
    (FetchVal.data Json.null) rfl rfl

/-- The imported-register scan of `get_item_summary` (`register.py` lines
207-210): first match over the stored order. -/
def findInImports (st : RState) (identifier : String) :
    List String → Option Summary
  | [] => none
  | r :: rest =>
    match lookupA st.regs r with
    | none => findInImports st identifier rest
    | some rr =>
      match lookupA rr.bblocks identifier with
      | some b => some b
      | none => findInImports st identifier rest

/-- `BuildingBlockRegister.get_item_summary` (`register.py` lines
204-211): the local mapping first, then each imported register in stored
order. -/
def get_item_summary (st : RState) (selfUrl identifier : String) :
    Option Summary :=
  match lookupA st.regs selfUrl with
  | none => none
  | some reg =>
    match lookupA reg.bblocks identifier with
    | some b => some b
    | none => findInImports st identifier reg.importedRegisters

/-- `BuildingBlockRegister.get_item_full` (`register.py` lines 213-231).
Returns the updated register graph, the optional record, and the list of
fetched URLs.  The `summary.documentation['json-full']` access is
unguarded in the source, hence a key-lookup error when the entry is
absent; dereferencing a dangling `source_register` back-reference is
likewise an error (`AttributeError` in Python). -/
def get_item_full (st : RState) (selfUrl identifier : String) :
    Except LoadErr (RState × Option BBlock × List String) :=
  match get_item_summary st selfUrl identifier with
  | none => .ok (st, none, [])
  | some summary =>
    match summary.sourceRegister with
    | none => .error (.keyError "source_register")
    | some ownerUrl =>
      match lookupA st.regs ownerUrl with
      | none => .error (.keyError "source_register")
      | some owner =>
        match lookupA owner.bblocksCache identifier with
        | some bb => .ok (st, some bb, [])
        | none =>
          match lookupA summary.documentation "json-full" with
          | none => .error (.keyError "json-full")
          | some entry =>
            match lookupA st.regs selfUrl with
            | none => .error (.keyError "self")
            | some selfReg =>
              match lookupA selfReg.loader entry.url with
              | none => .error (.fetchFail entry.url)
              | some (.data _) => .error (.wrongShape entry.url)
              | some (.bb d) =>
                match parseBB d with
                | .error e => .error e
                | .ok bb0 =>
                  let bb :=
                    { bb0 with
                      summaryRef := some summary
                      base := { bb0.base with sourceRegister := some ownerUrl } }
                  let owner' := { owner with
                    bblocksCache := updateA owner.bblocksCache identifier bb }
                  .ok ({ regs := updateA st.regs ownerUrl owner' },
                       some bb, [entry.url])

/-- C9: when the summary is found, the owning register's full-record cache
has no entry for the identifier, and the summary's documentation mapping
has no `json-full` entry, `get_item_full` raises a key-lookup error rather
than returning an absent value. -/
theorem c9_missing_json_full_raises (st : RState)
    (selfUrl identifier : String) (summary : Summary) (ownerUrl : String)
    (owner : RReg)
    (hsum : get_item_summary st selfUrl identifier = some summary)
    (hsrc : summary.sourceRegister = some ownerUrl)
    (howner : lookupA st.regs ownerUrl = some owner)
    (hcache : lookupA owner.bblocksCache identifier = none)
    (hdoc : lookupA summary.documentation "json-full" = none) :
    get_item_full st selfUrl identifier = .error (.keyError "json-full") := by
  simp [get_item_full, hsum, hsrc, howner, hcache, hdoc]


/-- Sample summary without a `json-full` documentation entry. -/
def c9SummaryW : Summary :=
  { itemIdentifier := "item", name := "Item", status := none,
    itemClass := none, ldContext := none, schema := [],
    documentation := [], sourceRegister := some "r" }

/-- Sample register holding `c9SummaryW`. -/
def c9RegW : RReg :=
  { bblocks := [("item", c9SummaryW)], importedRegisters := [],
    urlCache := [], bblocksCache := [], loader := [] }

/-- Sample register graph for the key-error scenario. -/
def c9StateW : RState := { regs := [("r", c9RegW)] }

/-- Witness for `c9_missing_json_full_raises` on the concrete register
graph `c9StateW`. -/
theorem c9_missing_json_full_raises_witness :
    get_item_summary c9StateW "r" "item" = some c9SummaryW ∧
    c9SummaryW.sourceRegister = some "r" ∧
    lookupA c9StateW.regs "r" = some c9RegW ∧
    lookupA c9RegW.bblocksCache "item" = none ∧
    lookupA c9SummaryW.documentation "json-full" = none ∧
    get_item_full c9StateW "r" "item" = .error (.keyError "json-full") :=
  ⟨rfl, rfl, rfl, rfl, rfl,
   c9_missing_json_full_raises c9StateW "r" "item" c9SummaryW "r" c9RegW
     rfl rfl rfl rfl rfl⟩

/-- The portion of a register that `get_item_summary` reads: its summary
mapping and its imported-register list. -/
def regView (st : RState) (u : String) :
    Option (List (String × Summary) × List String) :=
  (lookupA st.regs u).map (fun r => (r.bblocks, r.importedRegisters))

/-- The imported-register scan only depends on the summary views. -/
theorem findInImports_congr (st1 st : RState)
    (h : ∀ u, regView st1 u = regView st u) (identifier : String) :
    ∀ l, findInImports st1 identifier l = findInImports st identifier l := by
  intro l
  induction l with
  | nil => rfl
  | cons r rest ih =>
    have hr := h r
    simp only [regView] at hr
    cases hst : lookupA st.regs r with
    | none =>
      rw [hst] at hr
      have h1 : lookupA st1.regs r = none := by
        cases hst1 : lookupA st1.regs r with
        | none => rfl
        | some rr => rw [hst1] at hr; simp at hr
      simp [findInImports, hst, h1, ih]
    | some rr =>
      rw [hst] at hr
      cases hst1 : lookupA st1.regs r with
      | none => rw [hst1] at hr; simp at hr
      | some rr1 =>
        rw [hst1] at hr
        simp only [Option.map_some', Option.some.injEq, Prod.mk.injEq] at hr
        obtain ⟨hbb, him⟩ := hr
        cases hb : lookupA rr.bblocks identifier with
        | some b => simp [findInImports, hst, hst1, hbb, hb]
        | none => simp [findInImports, hst, hst1, hbb, hb, ih]

/-- `get_item_summary` only depends on the summary views. -/
theorem get_item_summary_congr (st1 st : RState)
    (h : ∀ u, regView st1 u = regView st u) (selfUrl identifier : String) :
    get_item_summary st1 selfUrl identifier =
      get_item_summary st selfUrl identifier := by
  have hr := h selfUrl
  simp only [regView] at hr
  cases hst : lookupA st.regs selfUrl with
  | none =>
    rw [hst] at hr
    have h1 : lookupA st1.regs selfUrl = none := by
      cases hst1 : lookupA st1.regs selfUrl with
      | none => rfl
      | some rr => rw [hst1] at hr; simp at hr
    simp [get_item_summary, hst, h1]
  | some reg =>
    rw [hst] at hr
    cases hst1 : lookupA st1.regs selfUrl with
    | none => rw [hst1] at hr; simp at hr
    | some reg1 =>
      rw [hst1] at hr
      simp only [Option.map_some', Option.some.injEq, Prod.mk.injEq] at hr
      obtain ⟨hbb, him⟩ := hr
      cases hb : lookupA reg.bblocks identifier with
      | some b => simp [get_item_summary, hst, hst1, hbb, hb]
      | none =>
        simp [get_item_summary, hst, hst1, hbb, him, hb,
          findInImports_congr st1 st h identifier]

/-- Storing a materialized record in a register's full-record cache
(`summary.source_register._bblocks_cache[identifier] = bblock`). -/
def storeBB (owner : RReg) (identifier : String) (bbN : BBlock) : RReg :=
  { owner with bblocksCache := updateA owner.bblocksCache identifier bbN }

/-- After a record is stored in the owning register's cache, a further
`get_item_full` call returns the stored instance from the cache with no
fetch and no state change. -/
theorem get_item_full_after_store (st : RState)
    (selfUrl identifier ownerUrl : String) (summary : Summary)
    (owner : RReg) (bbN : BBlock)
    (hsum : get_item_summary st selfUrl identifier = some summary)
    (hsrc : summary.sourceRegister = some ownerUrl)
    (howner : lookupA st.regs ownerUrl = some owner) :
    ∀ st1, st1 = RState.mk (updateA st.regs ownerUrl (storeBB owner identifier bbN)) →
    get_item_full st1 selfUrl identifier = .ok (st1, some bbN, []) := by
  intro st1 hst1
  have hregs : st1.regs = updateA st.regs ownerUrl (storeBB owner identifier bbN) := by
    rw [hst1]
  have hview : ∀ u, regView st1 u = regView st u := by
    intro u
    by_cases hu : ownerUrl = u
    · subst hu
      simp only [regView, hregs]
      rw [lookupA_updateA_self, howner]
      rfl
    · simp only [regView, hregs]
      rw [lookupA_updateA_ne _ _ _ _ hu]
  have hsum1 : get_item_summary st1 selfUrl identifier = some summary :=
    (get_item_summary_congr st1 st hview selfUrl identifier).trans hsum
  have howner1 : lookupA st1.regs ownerUrl = some (storeBB owner identifier bbN) := by
    rw [hregs]
    exact lookupA_updateA_self st.regs ownerUrl _
  have hcache1 : lookupA (storeBB owner identifier bbN).bblocksCache identifier = some bbN :=
    lookupA_updateA_self owner.bblocksCache identifier bbN
  simp [get_item_full, hsum1, hsrc, howner1, hcache1]

/-- C3: when `get_item_full` resolves an identifier to a record, a second
call on the resulting register graph returns the very record stored in the
owning register's cache — the same instance, with no state change and no
fetch — and at most one full-record fetch happens across the two calls. -/
theorem c3_get_item_full_cached_instance (st : RState)
    (selfUrl identifier : String) (st1 : RState) (bb1 : BBlock)
    (log1 : List String)
    (h : get_item_full st selfUrl identifier = .ok (st1, some bb1, log1)) :
    get_item_full st1 selfUrl identifier = .ok (st1, some bb1, []) ∧
    log1.length ≤ 1 := by
  unfold get_item_full at h
  cases hsum : get_item_summary st selfUrl identifier with
  | none => simp only [hsum] at h; simp at h
  | some summary =>
    simp only [hsum] at h
    cases hsrc : summary.sourceRegister with
    | none => simp [hsrc] at h
    | some ownerUrl =>
      simp only [hsrc] at h
      cases howner : lookupA st.regs ownerUrl with
      | none => simp [howner] at h
      | some owner =>
        simp only [howner] at h
        cases hcache : lookupA owner.bblocksCache identifier with
        | some bb =>
          simp only [hcache, Except.ok.injEq, Prod.mk.injEq,
            Option.some.injEq] at h
          obtain ⟨rfl, rfl, rfl⟩ := h
          refine ⟨?_, by simp⟩
          simp [get_item_full, hsum, hsrc, howner, hcache]
        | none =>
          simp only [hcache] at h
          cases hdoc : lookupA summary.documentation "json-full" with
          | none => simp [hdoc] at h
          | some entry =>
            simp only [hdoc] at h
            cases hself : lookupA st.regs selfUrl with
            | none => simp [hself] at h
            | some selfReg =>
              simp only [hself] at h
              cases hload : lookupA selfReg.loader entry.url with
              | none => simp [hload] at h
              | some fv =>
                cases fv with
                | data j => simp [hload] at h
                | bb dd =>
                  simp only [hload] at h
                  cases hparse : parseBB dd with
                  | error e => simp [hparse] at h
                  | ok bb0 =>
                    simp only [hparse, Except.ok.injEq, Prod.mk.injEq,
                      Option.some.injEq] at h
                    obtain ⟨rfl, rfl, rfl⟩ := h
                    refine ⟨?_, by simp⟩
                    exact get_item_full_after_store st selfUrl identifier
                      ownerUrl summary owner _ hsum hsrc howner _ rfl

/-- Sample summary whose full record lives at `http://ex/full.json`. -/
def c3SummaryW : Summary :=
  { itemIdentifier := "item", name := "Item", status := none,
    itemClass := none, ldContext := none, schema := [],
    documentation := [("json-full",
      { mediatype := "application/json", url := "http://ex/full.json" })],
    sourceRegister := some "r" }

/-- Raw full-record document served for `c3SummaryW`. -/
def c3DocW : BBDoc := { base := { itemIdentifier := "item", name := "Item" } }

/-- Sample register serving `c3DocW` through its fetch collaborator. -/
def c3RegW : RReg :=
  { bblocks := [("item", c3SummaryW)], importedRegisters := [],
    urlCache := [], bblocksCache := [],
    loader := [("http://ex/full.json", FetchVal.bb c3DocW)] }

/-- Sample register graph before the first `get_item_full` call. -/
def c3StateW : RState := { regs := [("r", c3RegW)] }

/-- The record materialized by the first call. -/
def c3BBW : BBlock :=
  { base := { itemIdentifier := "item", name := "Item", status := none,
              itemClass := none, ldContext := none, schema := [],
              documentation := [], sourceRegister := some "r" },
    summaryRef := some c3SummaryW, steps := [] }

/-- The register graph after the first call cached the record. -/
def c3State1W : RState :=
  { regs := [("r",
      { bblocks := [("item", c3SummaryW)], importedRegisters := [],
        urlCache := [], bblocksCache := [("item", c3BBW)],
        loader := [("http://ex/full.json", FetchVal.bb c3DocW)] })] }

/-- Witness for `c3_get_item_full_cached_instance`: on `c3StateW` the
first call fetches once and caches; the second call returns the identical
cached record without fetching. -/
theorem c3_get_item_full_cached_instance_witness :
    get_item_full c3StateW "r" "item" =
      .ok (c3State1W, some c3BBW, ["http://ex/full.json"]) ∧
    get_item_full c3State1W "r" "item" = .ok (c3State1W, some c3BBW, []) ∧
    (["http://ex/full.json"] : List String).length ≤ 1 := by
  refine ⟨rfl, ?_, ?_⟩
  · exact (c3_get_item_full_cached_instance c3StateW "r" "item" c3State1W
      c3BBW ["http://ex/full.json"] rfl).1
  · exact (c3_get_item_full_cached_instance c3StateW "r" "item" c3State1W
      c3BBW ["http://ex/full.json"] rfl).2

/-!
### Registry resolver

Embedding of `_load_register` / `load_register` (`register.py` lines
234-289).  The fetch collaborator is a finite table of register documents
(`Web`); registers are identified by URL (each URL is fetched, and its
register created, at most once per top-level call, so a URL denotes a
unique register instance).  Python's in-place growth of
`register.imported_registers` — observable by recursive calls through the
shared `_seen_registers` table — is modelled by keeping every register's
current state in the seen table and updating it entry by entry.
Recursion is fuelled; an adequacy theorem shows that `web.length + 1`
units of fuel can never run out.
-/

/-- A raw register document: its import URL list and its item list (the
scalar metadata fields do not influence the traversal). -/
structure RegDoc where
  imports : List String := []
  bblocks : List SummaryDoc := []
deriving Repr, DecidableEq

/-- A fetch collaborator's table: URL to register document. -/
abbrev Web := List (String × RegDoc)

/-- A register under construction (`BuildingBlockRegister`): its URL,
declared imports, parsed summary mapping, and its imported-register list,
which grows while its import loop runs. -/
structure Reg where
  url : String
  imports : List String
  bblocks : List (String × Summary)
  importedRegisters : List String
deriving Repr, DecidableEq

/-- Traversal state: the `_seen_registers` table (URL to register, in
creation order) and the fetched URLs in fetch order. -/
structure LoadState where
  seen : List (String × Reg)
  fetched : List String
deriving Repr, DecidableEq

/-- Parse the items of a register document and key them by identifier
with the back-reference set (`register.py` lines 249-256); a dict
insertion, so a duplicate identifier overwrites. -/
def insertItems (regUrl : String) :
    List SummaryDoc → List (String × Summary) →
    Except LoadErr (List (String × Summary))
  | [], acc => .ok acc
  | d :: rest, acc =>
    match parseSummary d with
    | .error e => .error e
    | .ok s =>
      insertItems regUrl rest
        (updateA acc s.itemIdentifier { s with sourceRegister := some regUrl })

/-- Update the payload of the entries carrying the given key. -/
def updEntry {α : Type} (f : α → α) (self : String) (e : String × α) :
    String × α :=
  if e.1 = self then (e.1, f e.2) else e

/-- `register.imported_registers.append(...)`: append one URL to a
register's imported-register list in place (the register is shared
through the seen table, so the entry is updated there). -/
def appendImported (st : LoadState) (self r : String) : LoadState :=
  { st with seen := st.seen.map (updEntry
      (fun reg => { reg with
        importedRegisters := reg.importedRegisters ++ [r] }) self) }

/-- The flatten loop of `_load_register` (`register.py` lines 278-281):
append, in order and skipping URLs already collected, every register of
the import's current imported-register list. -/
def flattenInto (self : String) :
    List String → List String → LoadState → LoadState × List String
  | [], iurls, st => (st, iurls)
  | r :: rest, iurls, st =>
    if r ∈ iurls then flattenInto self rest iurls st
    else flattenInto self rest (r :: iurls) (appendImported st self r)

/-- The URLs the flatten loop appends, in order. -/
def flattenAdds : List String → List String → List String
  | [], _ => []
  | r :: rest, iurls =>
    if r ∈ iurls then flattenAdds rest iurls
    else r :: flattenAdds rest (r :: iurls)

/-- The collected-URL set after the flatten loop. -/
def flattenIurls : List String → List String → List String
  | [], iurls => iurls
  | r :: rest, iurls =>
    if r ∈ iurls then flattenIurls rest iurls
    else flattenIurls rest (r :: iurls)

/-- Processing one found import (`register.py` lines 277-281): append
the found import itself to this register's list, then flatten that
register's current imported-register list. -/
def doFlatten (self u : String) (iurls : List String) (st : LoadState) :
    LoadState × List String :=
  let st1 := appendImported st self u
  match lookupA st1.seen u with
  | some regU => flattenInto self regU.importedRegisters iurls st1
  | none => (st1, iurls)

mutual
/-- `_load_register` (`register.py` lines 234-283): fetch and parse the
document, construct the register and its summaries, record it in the seen
table, then (when dependencies are requested) process the declared
list of imports in order.  `loader` is the collaborator the caller passed;
recursive loads use the module default collaborator `dflt`, exactly as in
the source (line 274 does not forward `yaml_loader`). -/
def loadReg (dflt loader : Web) (ld : Bool) (fuel : Nat) (url : String)
    (st : LoadState) : Except LoadErr LoadState :=
  match fuel with
  | 0 => .error .outOfFuel
  | fuel' + 1 =>
    match lookupA loader url with
    | none => .error (.fetchFail url)
    | some doc =>
      match insertItems url doc.bblocks [] with
      | .error e => .error e
      | .ok items =>
        let reg : Reg := { url := url, imports := doc.imports,
                           bblocks := items, importedRegisters := [] }
        let st2 : LoadState := { seen := st.seen ++ [(url, reg)],
                                 fetched := st.fetched ++ [url] }
        if ld then processImports dflt fuel' url doc.imports [url] st2
        else .ok st2
termination_by (fuel, 0)

/-- The import loop of `_load_register` (`register.py` lines 266-281):
skip URLs already collected, reuse seen registers, recurse otherwise,
then flatten the import's current imported-register list into this
register's list. -/
def processImports (dflt : Web) (fuel : Nat) (self : String) :
    List String → List String → LoadState → Except LoadErr LoadState
  | [], _, st => .ok st
  | u :: rest, iurls, st =>
    if u ∈ iurls then processImports dflt fuel self rest iurls st
    else
      match lookupA st.seen u with
      | some _ =>
        let p := doFlatten self u (u :: iurls) st
        processImports dflt fuel self rest p.2 p.1
      | none =>
        match loadReg dflt dflt true fuel u st with
        | .error e => .error e
        | .ok st' =>
          let p := doFlatten self u (u :: iurls) st'
          processImports dflt fuel self rest p.2 p.1
termination_by l _ _ => (fuel, l.length + 1)
end

/-- `load_register` (`register.py` lines 286-289): the public entry
point, with the fuel bound that `load_register_never_out_of_fuel` proves
sufficient. -/
def load_register (dflt loader : Web) (ld : Bool) (url : String) :
    Except LoadErr LoadState :=
  loadReg dflt loader ld (dflt.length + 2) url { seen := [], fetched := [] }

/-- One import edge of the registry document graph. -/
def ImportsOf (w : Web) (a b : String) : Prop :=
  ∃ d, lookupA w a = some d ∧ b ∈ d.imports

/-- Reachability along import edges. -/
inductive Reaches (w : Web) : String → String → Prop where
  | refl (u : String) : Reaches w u u
  | step {u v x : String} : ImportsOf w u v → Reaches w v x → Reaches w u x

/-- Transitivity of reachability. -/
theorem reaches_trans {w : Web} {a b c : String}
    (h1 : Reaches w a b) (h2 : Reaches w b c) : Reaches w a c := by
  induction h1 with
  | refl => exact h2
  | step e _ ih => exact Reaches.step e (ih h2)

/-- Reachable nodes stay inside any edge-closed set containing the
start. -/
theorem reaches_mem_closed {w : Web} {S : List String} :
    (∀ a ∈ S, ∀ b, ImportsOf w a b → b ∈ S) →
    ∀ {a v : String}, Reaches w a v → a ∈ S → v ∈ S := by
  intro hclosed a v hr
  induction hr with
  | refl => intro h; exact h
  | step e _ ih => intro ha; exact ih (hclosed _ ha _ e)

/-- The URLs of the seen table, in creation order. -/
def domSeen (st : LoadState) : List String := st.seen.map Prod.fst

/-- A key resolves iff it is among the keys. -/
theorem lookupA_eq_none_iff {α : Type} :
    ∀ (l : List (String × α)) (k : String),
    lookupA l k = none ↔ k ∉ l.map Prod.fst := by
  intro l k
  induction l with
  | nil => simp [lookupA]
  | cons p rest ih =>
    obtain ⟨a, v⟩ := p
    by_cases h : a = k
    · subst h; simp [lookupA]
    · simp [lookupA, h, ih, Ne.symm h]

/-- A successful lookup means the pair is in the list. -/
theorem lookupA_mem {α : Type} :
    ∀ (l : List (String × α)) (k : String) (v : α),
    lookupA l k = some v → (k, v) ∈ l := by
  intro l k v
  induction l with
  | nil => intro h; cases h
  | cons p rest ih =>
    obtain ⟨a, w⟩ := p
    by_cases h : a = k
    · subst h
      intro hl
      simp only [lookupA, if_pos rfl] at hl
      injection hl with hl
      subst hl
      exact List.mem_cons_self _ _
    · intro hl
      simp only [lookupA, if_neg h] at hl
      exact List.mem_cons_of_mem _ (ih hl)

/-- Lookup through a concatenation, left hit. -/
theorem lookupA_append_some {α : Type} (l1 l2 : List (String × α))
    (k : String) (v : α) (h : lookupA l1 k = some v) :
    lookupA (l1 ++ l2) k = some v := by
  induction l1 with
  | nil => cases h
  | cons p rest ih =>
    obtain ⟨a, w⟩ := p
    by_cases hk : a = k
    · subst hk
      simp only [lookupA, if_pos rfl] at h ⊢
      exact h
    · simp only [lookupA, if_neg hk] at h ⊢
      exact ih h

/-- Lookup through a concatenation, left miss. -/
theorem lookupA_append_none {α : Type} (l1 l2 : List (String × α))
    (k : String) (h : lookupA l1 k = none) :
    lookupA (l1 ++ l2) k = lookupA l2 k := by
  induction l1 with
  | nil => rfl
  | cons p rest ih =>
    obtain ⟨a, w⟩ := p
    by_cases hk : a = k
    · subst hk; simp [lookupA] at h
    · simp only [lookupA, if_neg hk] at h ⊢
      exact ih h

/-- Unfolding `updEntry` at a matching key. -/
theorem updEntry_eq_pos {α : Type} (f : α → α) (self a : String) (v : α)
    (h : a = self) : updEntry f self (a, v) = (a, f v) := by
  unfold updEntry
  split
  · rfl
  · case isFalse hc => exact absurd h hc

/-- Unfolding `updEntry` at a non-matching key. -/
theorem updEntry_eq_neg {α : Type} (f : α → α) (self a : String) (v : α)
    (h : ¬ a = self) : updEntry f self (a, v) = (a, v) := by
  unfold updEntry
  split
  · case isTrue hc => exact absurd hc h
  · rfl

/-- Lookup after the in-place update of one entry's payload. -/
theorem lookupA_mapUpdate {α : Type} (f : α → α) (self : String) :
    ∀ (l : List (String × α)) (k : String),
    lookupA (l.map (updEntry f self)) k =
      if k = self then (lookupA l k).map f else lookupA l k := by
  intro l k
  induction l with
  | nil => by_cases h : k = self <;> simp [lookupA, h]
  | cons p rest ih =>
    obtain ⟨a, v⟩ := p
    rw [List.map_cons]
    by_cases has : a = self
    · rw [updEntry_eq_pos f self a v has]
      by_cases hak : a = k
      · subst hak
        have h1 : lookupA ((a, f v) :: rest.map (updEntry f self)) a =
            some (f v) := by simp [lookupA]
        have h2 : lookupA ((a, v) :: rest) a = some v := by simp [lookupA]
        rw [h1, h2, if_pos has]
        rfl
      · have h1 : lookupA ((a, f v) :: rest.map (updEntry f self)) k =
            lookupA (rest.map (updEntry f self)) k := by simp [lookupA, hak]
        have h2 : lookupA ((a, v) :: rest) k = lookupA rest k := by
          simp [lookupA, hak]
        rw [h1, h2, ih]
    · rw [updEntry_eq_neg f self a v has]
      by_cases hak : a = k
      · subst hak
        have h1 : lookupA ((a, v) :: rest.map (updEntry f self)) a =
            some v := by simp [lookupA]
        have h2 : lookupA ((a, v) :: rest) a = some v := by simp [lookupA]
        rw [h1, h2, if_neg has]
      · have h1 : lookupA ((a, v) :: rest.map (updEntry f self)) k =
            lookupA (rest.map (updEntry f self)) k := by simp [lookupA, hak]
        have h2 : lookupA ((a, v) :: rest) k = lookupA rest k := by
          simp [lookupA, hak]
        rw [h1, h2, ih]

/-- The in-place update of one entry's payload keeps the key list. -/
theorem fst_mapUpdate {α : Type} (f : α → α) (self : String) :
    ∀ l : List (String × α),
    (l.map (updEntry f self)).map Prod.fst = l.map Prod.fst := by
  intro l
  induction l with
  | nil => rfl
  | cons p rest ih =>
    by_cases h : p.1 = self <;> simp [updEntry, h, ih]

/-- `appendImported` leaves the fetch log unchanged. -/
theorem appendImported_fetched (st : LoadState) (self r : String) :
    (appendImported st self r).fetched = st.fetched := rfl

/-- `appendImported` keeps the key list of the seen table. -/
theorem appendImported_domSeen (st : LoadState) (self r : String) :
    domSeen (appendImported st self r) = domSeen st := by
  simp only [domSeen, appendImported]
  exact fst_mapUpdate _ self st.seen

/-- Lookup after `appendImported`. -/
theorem appendImported_lookup (st : LoadState) (self r k : String) :
    lookupA (appendImported st self r).seen k =
      if k = self
      then (lookupA st.seen k).map
        (fun reg => { reg with
          importedRegisters := reg.importedRegisters ++ [r] })
      else lookupA st.seen k := by
  simp only [appendImported]
  exact lookupA_mapUpdate _ self st.seen k

/-- The flatten loop leaves the fetch log unchanged. -/
theorem flattenInto_fetched (self : String) :
    ∀ (L iurls : List String) (st : LoadState),
    (flattenInto self L iurls st).1.fetched = st.fetched := by
  intro L
  induction L with
  | nil => intro iurls st; rfl
  | cons r rest ih =>
    intro iurls st
    by_cases h : r ∈ iurls
    · simp only [flattenInto, if_pos h]
      exact ih iurls st
    · simp only [flattenInto, if_neg h]
      rw [ih (r :: iurls) (appendImported st self r)]
      rfl

/-- The flatten loop keeps the key list of the seen table. -/
theorem flattenInto_domSeen (self : String) :
    ∀ (L iurls : List String) (st : LoadState),
    domSeen (flattenInto self L iurls st).1 = domSeen st := by
  intro L
  induction L with
  | nil => intro iurls st; rfl
  | cons r rest ih =>
    intro iurls st
    by_cases h : r ∈ iurls
    · simp only [flattenInto, if_pos h]
      exact ih iurls st
    · simp only [flattenInto, if_neg h]
      rw [ih (r :: iurls) (appendImported st self r),
        appendImported_domSeen]

/-- The flatten loop does not touch other registers. -/
theorem flattenInto_lookup_ne (self : String) :
    ∀ (L iurls : List String) (st : LoadState) (k : String), k ≠ self →
    lookupA (flattenInto self L iurls st).1.seen k = lookupA st.seen k := by
  intro L
  induction L with
  | nil => intro iurls st k _; rfl
  | cons r rest ih =>
    intro iurls st k hk
    by_cases h : r ∈ iurls
    · simp only [flattenInto, if_pos h]
      exact ih iurls st k hk
    · simp only [flattenInto, if_neg h]
      rw [ih (r :: iurls) (appendImported st self r) k hk,
        appendImported_lookup, if_neg hk]

/-- The flatten loop appends exactly `flattenAdds` to this register's
list. -/
theorem flattenInto_lookup_self (self : String) :
    ∀ (L iurls : List String) (st : LoadState) (reg : Reg),
    lookupA st.seen self = some reg →
    lookupA (flattenInto self L iurls st).1.seen self =
      some { reg with importedRegisters :=
        reg.importedRegisters ++ flattenAdds L iurls } := by
  intro L
  induction L with
  | nil =>
    intro iurls st reg hreg
    simp [flattenInto, flattenAdds, hreg]
  | cons r rest ih =>
    intro iurls st reg hreg
    by_cases h : r ∈ iurls
    · simp only [flattenInto, flattenAdds, if_pos h]
      exact ih iurls st reg hreg
    · simp only [flattenInto, flattenAdds, if_neg h]
      have h1 : lookupA (appendImported st self r).seen self =
          some { reg with importedRegisters :=
            reg.importedRegisters ++ [r] } := by
        rw [appendImported_lookup, if_pos rfl, hreg]
        rfl
      have h2 := ih (r :: iurls) (appendImported st self r) _ h1
      rw [h2]
      simp [List.append_assoc]

/-- The flatten loop's collected-URL set is `flattenIurls`. -/
theorem flattenInto_iurls (self : String) :
    ∀ (L iurls : List String) (st : LoadState),
    (flattenInto self L iurls st).2 = flattenIurls L iurls := by
  intro L
  induction L with
  | nil => intro iurls st; rfl
  | cons r rest ih =>
    intro iurls st
    by_cases h : r ∈ iurls
    · simp only [flattenInto, flattenIurls, if_pos h]
      exact ih iurls st
    · simp only [flattenInto, flattenIurls, if_neg h]
      exact ih (r :: iurls) (appendImported st self r)

/-- Appended URLs come from the list and were not yet collected. -/
theorem flattenAdds_mem :
    ∀ (L iurls : List String) (x : String), x ∈ flattenAdds L iurls →
    x ∈ L ∧ x ∉ iurls := by
  intro L
  induction L with
  | nil => intro iurls x hx; cases hx
  | cons r rest ih =>
    intro iurls x hx
    by_cases h : r ∈ iurls
    · rw [flattenAdds, if_pos h] at hx
      obtain ⟨h1, h2⟩ := ih iurls x hx
      exact ⟨List.mem_cons_of_mem _ h1, h2⟩
    · rw [flattenAdds, if_neg h] at hx
      rcases List.mem_cons.mp hx with rfl | hx
      · exact ⟨List.mem_cons_self _ _, h⟩
      · obtain ⟨h1, h2⟩ := ih (r :: iurls) x hx
        exact ⟨List.mem_cons_of_mem _ h1,
          fun hc => h2 (List.mem_cons_of_mem _ hc)⟩

/-- The appended URLs are pairwise distinct. -/
theorem flattenAdds_nodup :
    ∀ (L iurls : List String), (flattenAdds L iurls).Nodup := by
  intro L
  induction L with
  | nil => intro iurls; exact List.nodup_nil
  | cons r rest ih =>
    intro iurls
    by_cases h : r ∈ iurls
    · rw [flattenAdds, if_pos h]; exact ih iurls
    · rw [flattenAdds, if_neg h]
      refine List.nodup_cons.mpr ⟨?_, ih (r :: iurls)⟩
      intro hc
      exact (flattenAdds_mem rest (r :: iurls) r hc).2
        (List.mem_cons_self _ _)

/-- Membership in the collected-URL set after flattening. -/
theorem flattenIurls_mem :
    ∀ (L iurls : List String) (x : String),
    x ∈ flattenIurls L iurls ↔ x ∈ flattenAdds L iurls ∨ x ∈ iurls := by
  intro L
  induction L with
  | nil => intro iurls x; simp [flattenIurls, flattenAdds]
  | cons r rest ih =>
    intro iurls x
    by_cases h : r ∈ iurls
    · rw [flattenIurls, if_pos h, flattenAdds, if_pos h]
      exact ih iurls x
    · rw [flattenIurls, if_neg h, flattenAdds, if_neg h]
      rw [ih (r :: iurls) x]
      constructor
      · rintro (hx | hx)
        · exact Or.inl (List.mem_cons_of_mem _ hx)
        · rcases List.mem_cons.mp hx with rfl | hx
          · exact Or.inl (List.mem_cons_self _ _)
          · exact Or.inr hx
      · rintro (hx | hx)
        · rcases List.mem_cons.mp hx with rfl | hx
          · exact Or.inr (List.mem_cons_self _ _)
          · exact Or.inl hx
        · exact Or.inr (List.mem_cons_of_mem _ hx)

/-- After flattening, every URL of the list has been collected. -/
theorem flattenIurls_covers :
    ∀ (L iurls : List String) (x : String), x ∈ L →
    x ∈ flattenIurls L iurls := by
  intro L
  induction L with
  | nil => intro iurls x hx; cases hx
  | cons r rest ih =>
    intro iurls x hx
    have hgrow : ∀ (M i : List String) (y : String), y ∈ i →
        y ∈ flattenIurls M i := by
      intro M
      induction M with
      | nil => intro i y hy; exact hy
      | cons s tail ihM =>
        intro i y hy
        by_cases hs : s ∈ i
        · rw [flattenIurls, if_pos hs]; exact ihM i y hy
        · rw [flattenIurls, if_neg hs]
          exact ihM (s :: i) y (List.mem_cons_of_mem _ hy)
    rcases List.mem_cons.mp hx with rfl | hx
    · by_cases h : x ∈ iurls
      · rw [flattenIurls, if_pos h]; exact hgrow rest iurls x h
      · rw [flattenIurls, if_neg h]
        exact hgrow rest (x :: iurls) x (List.mem_cons_self _ _)
    · by_cases h : r ∈ iurls
      · rw [flattenIurls, if_pos h]; exact ih iurls x hx
      · rw [flattenIurls, if_neg h]; exact ih (r :: iurls) x hx

/-- Order preservation: restricted to any set of URLs that the collected
set does not yet contain, the appended list agrees with the source list
(provided the source list has no duplicates). -/
theorem flattenAdds_filter (S : List String) :
    ∀ (L iurls : List String), L.Nodup →
    (∀ x, x ∈ S → x ∈ L → x ∉ iurls) →
    (flattenAdds L iurls).filter (fun x => decide (x ∈ S)) =
      L.filter (fun x => decide (x ∈ S)) := by
  intro L
  induction L with
  | nil => intro iurls _ _; rfl
  | cons r rest ih =>
    intro iurls hnd hdis
    have hndr : rest.Nodup := (List.nodup_cons.mp hnd).2
    have hrnotin : r ∉ rest := (List.nodup_cons.mp hnd).1
    by_cases h : r ∈ iurls
    · have hrS : r ∉ S := fun hc => hdis r hc (List.mem_cons_self _ _) h
      rw [flattenAdds, if_pos h]
      rw [List.filter_cons_of_neg (by simpa using hrS)]
      exact ih iurls hndr
        (fun x hxS hxr => hdis x hxS (List.mem_cons_of_mem _ hxr))
    · rw [flattenAdds, if_neg h]
      have hrec := ih (r :: iurls) hndr (by
        intro x hxS hxr hmem
        rcases List.mem_cons.mp hmem with rfl | hmem
        · exact hrnotin hxr
        · exact hdis x hxS (List.mem_cons_of_mem _ hxr) hmem)
      by_cases hrS : r ∈ S
      · rw [List.filter_cons_of_pos (by simpa using hrS),
          List.filter_cons_of_pos (by simpa using hrS), hrec]
      · rw [List.filter_cons_of_neg (by simpa using hrS),
          List.filter_cons_of_neg (by simpa using hrS), hrec]

/-- Effect of processing one found import: the fetch log and the other
registers are untouched; this register's list gains the import and the
flatten additions; the collected set becomes `flattenIurls`. -/
theorem doFlatten_spec (self u : String) (iurls : List String)
    (st : LoadState) (regS regU : Reg)
    (hne : ¬ u = self)
    (hS : lookupA st.seen self = some regS)
    (hU : lookupA st.seen u = some regU) :
    (doFlatten self u iurls st).1.fetched = st.fetched ∧
    domSeen (doFlatten self u iurls st).1 = domSeen st ∧
    (∀ k, k ≠ self →
      lookupA (doFlatten self u iurls st).1.seen k = lookupA st.seen k) ∧
    lookupA (doFlatten self u iurls st).1.seen self =
      some { regS with importedRegisters :=
        regS.importedRegisters ++
          u :: flattenAdds regU.importedRegisters iurls } ∧
    (doFlatten self u iurls st).2 =
      flattenIurls regU.importedRegisters iurls := by
  have hst1self : lookupA (appendImported st self u).seen self =
      some { regS with importedRegisters :=
        regS.importedRegisters ++ [u] } := by
    simp only [appendImported]
    rw [lookupA_mapUpdate, if_pos rfl, hS]
    rfl
  have hst1u : lookupA (appendImported st self u).seen u = some regU := by
    simp only [appendImported]
    rw [lookupA_mapUpdate, if_neg hne, hU]
  have hred : doFlatten self u iurls st =
      flattenInto self regU.importedRegisters iurls
        (appendImported st self u) := by
    simp only [doFlatten]
    rw [hst1u]
  rw [hred]
  refine ⟨?_, ?_, ?_, ?_, ?_⟩
  · rw [flattenInto_fetched]
    rfl
  · rw [flattenInto_domSeen, appendImported_domSeen]
  · intro k hk
    rw [flattenInto_lookup_ne self _ _ _ k hk, appendImported_lookup,
      if_neg hk]
  · rw [flattenInto_lookup_self self regU.importedRegisters iurls
      (appendImported st self u) _ hst1self]
    simp [List.append_assoc]
  · exact flattenInto_iurls self _ _ _

/-- Well-formedness of one register reachable through the seen table. -/
def regOk (st : LoadState) (k : String) (reg : Reg) : Prop :=
  reg.url = k ∧
  reg.importedRegisters.Nodup ∧
  k ∉ reg.importedRegisters ∧
  ∀ x ∈ reg.importedRegisters, x ∈ domSeen st

/-- Traversal-state well-formedness: the seen keys are exactly the
fetched URLs in fetch order (so each URL is fetched at most once), and
every register's imported-register list is duplicate-free, self-free,
and only mentions seen registers. -/
def WFL (st : LoadState) : Prop :=
  domSeen st = st.fetched ∧ st.fetched.Nodup ∧
  ∀ k reg, lookupA st.seen k = some reg → regOk st k reg

/-- Well-formedness is preserved by processing one found import. -/
theorem WFL_doFlatten (st : LoadState) (self u : String)
    (iurls : List String) (regS regU : Reg)
    (hWF : WFL st)
    (hS : lookupA st.seen self = some regS)
    (hU : lookupA st.seen u = some regU)
    (hne : ¬ u = self)
    (hsub : ∀ x ∈ regS.importedRegisters, x ∈ iurls)
    (hselfi : self ∈ iurls)
    (hu : u ∉ iurls) :
    WFL (doFlatten self u (u :: iurls) st).1 := by
  obtain ⟨hdom, hnd, hent⟩ := hWF
  obtain ⟨hfet, hdom2, hlookne, hlookself, _⟩ :=
    doFlatten_spec self u (u :: iurls) st regS regU hne hS hU
  have hudom : u ∈ domSeen st := by
    by_contra hc
    have hnone : lookupA st.seen u = none :=
      (lookupA_eq_none_iff st.seen u).mpr hc
    rw [hnone] at hU
    cases hU
  have hregSok := hent self regS hS
  have hregUok := hent u regU hU
  have hadds : ∀ x ∈ flattenAdds regU.importedRegisters (u :: iurls),
      x ∈ regU.importedRegisters ∧ x ∉ u :: iurls :=
    fun x hx => flattenAdds_mem _ _ x hx
  refine ⟨?_, ?_, ?_⟩
  · rw [hdom2, hfet, hdom]
  · rw [hfet]
    exact hnd
  · intro k reg hk
    by_cases hks : k = self
    · subst hks
      rw [hlookself] at hk
      injection hk with hk
      subst hk
      refine ⟨hregSok.1, ?_, ?_, ?_⟩
      · rw [List.nodup_append]
        refine ⟨hregSok.2.1, ?_, ?_⟩
        · refine List.nodup_cons.mpr ⟨?_, flattenAdds_nodup _ _⟩
          intro hc
          exact (hadds u hc).2 (List.mem_cons_self _ _)
        · intro x hx hxc
          have hxi : x ∈ iurls := hsub x hx
          rcases List.mem_cons.mp hxc with rfl | hxadds
          · exact hu hxi
          · exact (hadds x hxadds).2 (List.mem_cons_of_mem _ hxi)
      · intro hc
        rcases List.mem_append.mp hc with hc | hc
        · exact hregSok.2.2.1 hc
        · rcases List.mem_cons.mp hc with rfl | hc
          · exact hne rfl
          · exact (hadds _ hc).2 (List.mem_cons_of_mem _ hselfi)
      · intro x hx
        rw [hdom2]
        rcases List.mem_append.mp hx with hx | hx
        · exact hregSok.2.2.2 x hx
        · rcases List.mem_cons.mp hx with rfl | hx
          · exact hudom
          · exact hregUok.2.2.2 x (hadds x hx).1
    · rw [hlookne k hks] at hk
      have hold := hent k reg hk
      refine ⟨hold.1, hold.2.1, hold.2.2.1, ?_⟩
      intro x hx
      rw [hdom2]
      exact hold.2.2.2 x hx

/-- Behaviour of one `_load_register` call with dependencies, for a given
fuel: on success the fetch log is extended by the new URL followed by the
URLs fetched while processing its imports; pre-existing registers are
untouched; all new URLs are reachable from the new one and their imports
are all seen afterwards; and the new register's imported-register list,
restricted to the URLs fetched by this call, is exactly the fetch tail in
fetch order, every other member being an older register. -/
def LoadSpec (dflt : Web) (fuel : Nat) : Prop :=
  ∀ (url : String) (st st' : LoadState),
  loadReg dflt dflt true fuel url st = .ok st' →
  WFL st → url ∉ domSeen st →
  ∃ (Δ : List String) (reg' : Reg),
    st'.fetched = st.fetched ++ url :: Δ ∧
    WFL st' ∧
    (∀ k, k ∈ domSeen st → lookupA st'.seen k = lookupA st.seen k) ∧
    lookupA st'.seen url = some reg' ∧
    (∀ v, v ∈ url :: Δ → Reaches dflt url v) ∧
    (∀ v, v ∈ url :: Δ → ∀ x, ImportsOf dflt v x → x ∈ domSeen st') ∧
    reg'.importedRegisters.filter (fun x => decide (x ∈ url :: Δ)) = Δ ∧
    (∀ x ∈ reg'.importedRegisters, x ∉ url :: Δ → x ∈ domSeen st)

/-- Behaviour of the import loop, for a given fuel. -/
def ProcSpec (dflt : Web) (fuel : Nat) : Prop :=
  ∀ (self : String) (imports iurls : List String) (st st' : LoadState)
    (regS : Reg),
  processImports dflt fuel self imports iurls st = .ok st' →
  WFL st →
  lookupA st.seen self = some regS →
  (∀ x, x ∈ iurls ↔ (x = self ∨ x ∈ regS.importedRegisters)) →
  (∀ u ∈ imports, ImportsOf dflt self u) →
  ∃ (Δ A : List String) (regS' : Reg),
    lookupA st'.seen self = some regS' ∧
    regS'.importedRegisters = regS.importedRegisters ++ A ∧
    st'.fetched = st.fetched ++ Δ ∧
    WFL st' ∧
    (∀ k, k ∈ domSeen st → k ≠ self →
      lookupA st'.seen k = lookupA st.seen k) ∧
    A.filter (fun x => decide (x ∈ Δ)) = Δ ∧
    (∀ x ∈ A, x ∉ Δ → x ∈ domSeen st) ∧
    (∀ x ∈ A, x ∉ iurls) ∧
    (∀ v ∈ Δ, Reaches dflt self v) ∧
    (∀ v ∈ Δ, ∀ x, ImportsOf dflt v x → x ∈ domSeen st') ∧
    (∀ u ∈ imports, u = self ∨ u ∈ regS'.importedRegisters)

/-- A successful lookup means the key is among the keys. -/
theorem mem_dom_of_lookupA {α : Type} (l : List (String × α)) (k : String)
    (v : α) (h : lookupA l k = some v) : k ∈ l.map Prod.fst := by
  by_contra hc
  rw [(lookupA_eq_none_iff l k).mpr hc] at h
  cases h

/-- Filtering with pointwise-equal predicates. -/
theorem filter_ext_mem {α : Type} (p q : α → Bool) :
    ∀ l : List α, (∀ x ∈ l, p x = q x) → l.filter p = l.filter q := by
  intro l
  induction l with
  | nil => intro _; rfl
  | cons a rest ih =>
    intro h
    have ha := h a (List.mem_cons_self _ _)
    have hrest := ih (fun x hx => h x (List.mem_cons_of_mem _ hx))
    cases hq : q a with
    | true =>
      rw [List.filter_cons_of_pos (by rw [ha, hq]),
        List.filter_cons_of_pos hq, hrest]
    | false =>
      rw [List.filter_cons_of_neg (by rw [ha, hq]; simp),
        List.filter_cons_of_neg (by rw [hq]; simp), hrest]

/-- Filtering a list none of whose members pass. -/
theorem filter_none_of {α : Type} (p : α → Bool) :
    ∀ l : List α, (∀ x ∈ l, p x = false) → l.filter p = [] := by
  intro l
  induction l with
  | nil => intro _; rfl
  | cons a rest ih =>
    intro h
    rw [List.filter_cons_of_neg (by rw [h a (List.mem_cons_self _ _)]; simp),
      ih (fun x hx => h x (List.mem_cons_of_mem _ hx))]

/-- Members of the two halves of a duplicate-free concatenation differ. -/
theorem nodup_append_disjoint {α : Type} (l1 l2 : List α)
    (h : (l1 ++ l2).Nodup) : ∀ a ∈ l1, a ∉ l2 := by
  intro a h1 h2
  exact (List.nodup_append.mp h).2.2 h1 h2

/-- The import loop satisfies its specification whenever single loads
do (at the same fuel). -/
theorem procSpec_of_loadSpec (dflt : Web) (fuel : Nat)
    (hload : LoadSpec dflt fuel) : ProcSpec dflt fuel := by
  intro self imports
  induction imports with
  | nil =>
    intro iurls st st' regS h hWF hS hinv himp
    have hst : st' = st := by
      simp only [processImports] at h
      injection h with h
      exact h.symm
    subst hst
    refine ⟨[], [], regS, hS, by simp, by simp, hWF,
      fun k _ _ => rfl, rfl, ?_, ?_, ?_, ?_, ?_⟩
    · intro x hx; cases hx
    · intro x hx; cases hx
    · intro v hv; cases hv
    · intro v hv; cases hv
    · intro v hv; cases hv
  | cons u rest ih =>
    intro iurls st st' regS h hWF hS hinv himp
    have hselfi : self ∈ iurls := (hinv self).mpr (Or.inl rfl)
    have hselfmem : self ∈ domSeen st := mem_dom_of_lookupA _ _ _ hS
    have hsub : ∀ x ∈ regS.importedRegisters, x ∈ iurls :=
      fun x hx => (hinv x).mpr (Or.inr hx)
    have hiurlsdom : ∀ x ∈ iurls, x ∈ domSeen st := by
      intro x hx
      rcases (hinv x).mp hx with rfl | hx2
      · exact hselfmem
      · exact ((hWF.2.2 self regS hS).2.2.2) x hx2
    have himprest : ∀ v ∈ rest, ImportsOf dflt self v :=
      fun v hv => himp v (List.mem_cons_of_mem _ hv)
    by_cases hmem : u ∈ iurls
    · -- duplicate URL: skipped (the `continue` branch)
      simp only [processImports, if_pos hmem] at h
      obtain ⟨Δ, A, regS', h1, h2, h3, h4, h5, h6, h7, h8, h9, h10, h11⟩ :=
        ih iurls st st' regS h hWF hS hinv himprest
      refine ⟨Δ, A, regS', h1, h2, h3, h4, h5, h6, h7, h8, h9, h10, ?_⟩
      intro u' hu'
      rcases List.mem_cons.mp hu' with rfl | hu'
      · rcases (hinv u').mp hmem with h12 | h12
        · exact Or.inl h12
        · exact Or.inr (by rw [h2]; exact List.mem_append_left _ h12)
      · exact h11 u' hu'
    · have hne : ¬ u = self := fun hc => hmem (by rw [hc]; exact hselfi)
      simp only [processImports, if_neg hmem] at h
      cases hseen : lookupA st.seen u with
      | some regU =>
        -- import already seen: reuse the shared instance and flatten
        -- its current (possibly still growing) list
        simp only [hseen] at h
        obtain ⟨hfet1, hdom1, hlookne1, hlookself1, hiurls1⟩ :=
          doFlatten_spec self u (u :: iurls) st regS regU hne hS hseen
        have hWF1 : WFL (doFlatten self u (u :: iurls) st).1 :=
          WFL_doFlatten st self u iurls regS regU hWF hS hseen hne hsub
            hselfi hmem
        have hudom : u ∈ domSeen st := mem_dom_of_lookupA _ _ _ hseen
        have hregUok := hWF.2.2 u regU hseen
        have haddsm := flattenAdds_mem regU.importedRegisters (u :: iurls)
        have hinv1 : ∀ x, x ∈ (doFlatten self u (u :: iurls) st).2 ↔
            (x = self ∨ x ∈ regS.importedRegisters ++
              u :: flattenAdds regU.importedRegisters (u :: iurls)) := by
          intro x
          rw [hiurls1, flattenIurls_mem]
          constructor
          · rintro (hx | hx)
            · exact Or.inr (List.mem_append_right _
                (List.mem_cons_of_mem _ hx))
            · rcases List.mem_cons.mp hx with rfl | hx
              · exact Or.inr (List.mem_append_right _
                  (List.mem_cons_self _ _))
              · rcases (hinv x).mp hx with rfl | hx2
                · exact Or.inl rfl
                · exact Or.inr (List.mem_append_left _ hx2)
          · rintro (rfl | hx)
            · exact Or.inr (List.mem_cons_of_mem _ hselfi)
            · rcases List.mem_append.mp hx with hx | hx
              · exact Or.inr (List.mem_cons_of_mem _ (hsub x hx))
              · rcases List.mem_cons.mp hx with rfl | hx
                · exact Or.inr (List.mem_cons_self _ _)
                · exact Or.inl hx
        obtain ⟨Δr, Ar, regS', h1, h2, h3, h4, h5, h6, h7, h8, h9, h10, h11⟩ :=
          ih (doFlatten self u (u :: iurls) st).2
            (doFlatten self u (u :: iurls) st).1 st' _ h hWF1 hlookself1
            hinv1 himprest
        have hΔfresh : ∀ x, x ∈ domSeen st → x ∉ Δr := by
          intro x hx
          have hnd' : ((doFlatten self u (u :: iurls) st).1.fetched ++
              Δr).Nodup := by rw [← h3]; exact h4.2.1
          refine nodup_append_disjoint _ _ hnd' x ?_
          rw [hfet1, ← hWF.1]
          exact hx
        refine ⟨Δr, (u :: flattenAdds regU.importedRegisters (u :: iurls))
          ++ Ar, regS', h1, ?_, ?_, h4, ?_, ?_, ?_, ?_, ?_, h10, ?_⟩
        · rw [h2]
          simp [List.append_assoc]
        · rw [h3, hfet1]
        · intro k hk hkself
          rw [h5 k (by rw [hdom1]; exact hk) hkself, hlookne1 k hkself]
        · rw [List.filter_append]
          have hnil : (u :: flattenAdds regU.importedRegisters
              (u :: iurls)).filter (fun x => decide (x ∈ Δr)) = [] := by
            apply filter_none_of
            intro x hx
            rcases List.mem_cons.mp hx with rfl | hx
            · simp [hΔfresh x hudom]
            · exact (by simp [hΔfresh x (hregUok.2.2.2 x (haddsm x hx).1)])
          rw [hnil, List.nil_append, h6]
        · intro x hx hxΔ
          rcases List.mem_append.mp hx with hx | hx
          · rcases List.mem_cons.mp hx with rfl | hx
            · exact hudom
            · exact hregUok.2.2.2 x (haddsm x hx).1
          · have := h7 x hx hxΔ
            rw [hdom1] at this
            exact this
        · intro x hx
          rcases List.mem_append.mp hx with hx | hx
          · rcases List.mem_cons.mp hx with rfl | hx
            · exact hmem
            · exact fun hc => (haddsm x hx).2 (List.mem_cons_of_mem _ hc)
          · intro hc
            apply h8 x hx
            rcases (hinv x).mp hc with hcs | hc2
            · exact (hinv1 x).mpr (Or.inl hcs)
            · exact (hinv1 x).mpr (Or.inr (List.mem_append_left _ hc2))
        · exact h9
        · intro u' hu'
          rcases List.mem_cons.mp hu' with rfl | hu'
          · refine Or.inr ?_
            rw [h2]
            exact List.mem_append_left _
              (List.mem_append_right _ (List.mem_cons_self _ _))
          · exact h11 u' hu'
      | none =>
        -- fresh import: recursive load, then flatten its final list
        simp only [hseen] at h
        cases hrec : loadReg dflt dflt true fuel u st with
        | error e => rw [hrec] at h; cases h
        | ok st2 =>
          rw [hrec] at h
          simp only [] at h
          have hufresh : u ∉ domSeen st :=
            (lookupA_eq_none_iff st.seen u).mp hseen
          obtain ⟨ΔL, regU', hl1, hl2, hl3, hl4, hl5, hl6, hl7, hl8⟩ :=
            hload u st st2 hrec hWF hufresh
          have hdomeq2 : domSeen st2 = domSeen st ++ u :: ΔL := by
            rw [hl2.1, hl1, ← hWF.1]
          have hS2 : lookupA st2.seen self = some regS := by
            rw [hl3 self hselfmem]
            exact hS
          obtain ⟨hfet1, hdom1, hlookne1, hlookself1, hiurls1⟩ :=
            doFlatten_spec self u (u :: iurls) st2 regS regU' hne hS2 hl4
          have hWF1 : WFL (doFlatten self u (u :: iurls) st2).1 :=
            WFL_doFlatten st2 self u iurls regS regU' hl2 hS2 hl4 hne hsub
              hselfi hmem
          have hregUok := hl2.2.2 u regU' hl4
          have haddsm := flattenAdds_mem regU'.importedRegisters (u :: iurls)
          have hΔLfresh : ∀ x, x ∈ domSeen st → x ∉ u :: ΔL := by
            intro x hx
            have hnd' : (st.fetched ++ u :: ΔL).Nodup := by
              rw [← hl1]; exact hl2.2.1
            refine nodup_append_disjoint _ _ hnd' x ?_
            rw [← hWF.1]
            exact hx
          have hinv1 : ∀ x, x ∈ (doFlatten self u (u :: iurls) st2).2 ↔
              (x = self ∨ x ∈ regS.importedRegisters ++
                u :: flattenAdds regU'.importedRegisters (u :: iurls)) := by
            intro x
            rw [hiurls1, flattenIurls_mem]
            constructor
            · rintro (hx | hx)
              · exact Or.inr (List.mem_append_right _
                  (List.mem_cons_of_mem _ hx))
              · rcases List.mem_cons.mp hx with rfl | hx
                · exact Or.inr (List.mem_append_right _
                    (List.mem_cons_self _ _))
                · rcases (hinv x).mp hx with rfl | hx2
                  · exact Or.inl rfl
                  · exact Or.inr (List.mem_append_left _ hx2)
            · rintro (rfl | hx)
              · exact Or.inr (List.mem_cons_of_mem _ hselfi)
              · rcases List.mem_append.mp hx with hx | hx
                · exact Or.inr (List.mem_cons_of_mem _ (hsub x hx))
                · rcases List.mem_cons.mp hx with rfl | hx
                  · exact Or.inr (List.mem_cons_self _ _)
                  · exact Or.inl hx
          obtain ⟨Δr, Ar, regS', h1, h2, h3, h4, h5, h6, h7, h8, h9, h10, h11⟩ :=
            ih (doFlatten self u (u :: iurls) st2).2
              (doFlatten self u (u :: iurls) st2).1 st' _ h hWF1 hlookself1
              hinv1 himprest
          have hΔrfresh : ∀ x, x ∈ domSeen st2 → x ∉ Δr := by
            intro x hx
            have hnd' : ((doFlatten self u (u :: iurls) st2).1.fetched ++
                Δr).Nodup := by rw [← h3]; exact h4.2.1
            refine nodup_append_disjoint _ _ hnd' x ?_
            rw [hfet1, ← hl2.1]
            exact hx
          have hedge : ImportsOf dflt self u :=
            himp u (List.mem_cons_self _ _)
          have hΔLsub : ∀ x ∈ ΔL, x ∈ regU'.importedRegisters := by
            intro x hx
            rw [← hl7] at hx
            exact (List.mem_filter.mp hx).1
          refine ⟨(u :: ΔL) ++ Δr,
            (u :: flattenAdds regU'.importedRegisters (u :: iurls)) ++ Ar,
            regS', h1, ?_, ?_, h4, ?_, ?_, ?_, ?_, ?_, ?_, ?_⟩
          · rw [h2]
            simp [List.append_assoc]
          · rw [h3, hfet1, hl1]
            simp [List.append_assoc]
          · intro k hk hkself
            rw [h5 k (by rw [hdom1, hdomeq2]; exact List.mem_append_left _ hk)
              hkself, hlookne1 k hkself, hl3 k hk]
          · rw [List.filter_append]
            have hcons : (u :: flattenAdds regU'.importedRegisters
                (u :: iurls)).filter
                (fun x => decide (x ∈ (u :: ΔL) ++ Δr)) = u :: ΔL := by
              rw [List.filter_cons_of_pos (by
                simp [List.mem_append, List.mem_cons])]
              have hstep1 : (flattenAdds regU'.importedRegisters
                  (u :: iurls)).filter
                  (fun x => decide (x ∈ (u :: ΔL) ++ Δr)) =
                  (flattenAdds regU'.importedRegisters (u :: iurls)).filter
                  (fun x => decide (x ∈ u :: ΔL)) := by
                apply filter_ext_mem
                intro x hx
                have hxdom : x ∈ domSeen st2 :=
                  hregUok.2.2.2 x (haddsm x hx).1
                have hxnot : x ∉ Δr := hΔrfresh x hxdom
                have hiff : (x ∈ (u :: ΔL) ++ Δr) ↔ (x ∈ u :: ΔL) := by
                  constructor
                  · intro hc
                    rcases List.mem_append.mp hc with hc | hc
                    · exact hc
                    · exact absurd hc hxnot
                  · exact fun hc => List.mem_append_left _ hc
                exact decide_eq_decide.mpr hiff
              have hstep2 : (flattenAdds regU'.importedRegisters
                  (u :: iurls)).filter (fun x => decide (x ∈ u :: ΔL)) =
                  ΔL := by
                rw [flattenAdds_filter (u :: ΔL) regU'.importedRegisters
                  (u :: iurls) hregUok.2.1 ?_]
                · have : regU'.importedRegisters.filter
                      (fun x => decide (x ∈ u :: ΔL)) = ΔL := hl7
                  exact this
                · intro x hxS hxL hxmem
                  rcases List.mem_cons.mp hxS with hxu | hxS2
                  · rw [hxu] at hxL
                    exact hregUok.2.2.1 hxL
                  · rcases List.mem_cons.mp hxmem with hxu | hxmem2
                    · rw [hxu] at hxS2
                      have hnd12 : (st.fetched ++ u :: ΔL).Nodup := by
                        rw [← hl1]; exact hl2.2.1
                      have hnodup2 : (u :: ΔL).Nodup :=
                        (List.nodup_append.mp hnd12).2.1
                      exact (List.nodup_cons.mp hnodup2).1 hxS2
                    · exact hΔLfresh x (hiurlsdom x hxmem2)
                        (List.mem_cons_of_mem _ hxS2)
              rw [hstep1, hstep2]
            have hAr : Ar.filter
                (fun x => decide (x ∈ (u :: ΔL) ++ Δr)) = Δr := by
              have hstep1 : Ar.filter
                  (fun x => decide (x ∈ (u :: ΔL) ++ Δr)) =
                  Ar.filter (fun x => decide (x ∈ Δr)) := by
                apply filter_ext_mem
                intro x hx
                have hxnot : x ∉ u :: ΔL := by
                  intro hc
                  apply h8 x hx
                  rw [hiurls1]
                  rcases List.mem_cons.mp hc with hxu | hc2
                  · subst hxu
                    exact (flattenIurls_mem _ _ _).mpr
                      (Or.inr (List.mem_cons_self _ _))
                  · exact flattenIurls_covers _ _ x (hΔLsub x hc2)
                have hiff : (x ∈ (u :: ΔL) ++ Δr) ↔ (x ∈ Δr) := by
                  constructor
                  · intro hc
                    rcases List.mem_append.mp hc with hc | hc
                    · exact absurd hc hxnot
                    · exact hc
                  · exact fun hc => List.mem_append_right _ hc
                exact decide_eq_decide.mpr hiff
              rw [hstep1, h6]
            rw [hcons, hAr]
          · intro x hx hxΔ
            rcases List.mem_append.mp hx with hx | hx
            · rcases List.mem_cons.mp hx with rfl | hx
              · exact absurd (List.mem_append_left _
                  (List.mem_cons_self _ _)) hxΔ
              · have hxreg : x ∈ regU'.importedRegisters := (haddsm x hx).1
                have hxnot : x ∉ u :: ΔL := by
                  intro hc
                  exact hxΔ (List.mem_append_left _ hc)
                exact hl8 x hxreg hxnot
            · have hxdom := h7 x hx (fun hc =>
                hxΔ (List.mem_append_right _ hc))
              rw [hdom1, hdomeq2] at hxdom
              rcases List.mem_append.mp hxdom with hxdom | hxdom
              · exact hxdom
              · exact absurd (List.mem_append_left _ hxdom) hxΔ
          · intro x hx
            rcases List.mem_append.mp hx with hx | hx
            · rcases List.mem_cons.mp hx with rfl | hx
              · exact hmem
              · exact fun hc => (haddsm x hx).2 (List.mem_cons_of_mem _ hc)
            · intro hc
              apply h8 x hx
              rcases (hinv x).mp hc with hcs | hc2
              · exact (hinv1 x).mpr (Or.inl hcs)
              · exact (hinv1 x).mpr (Or.inr (List.mem_append_left _ hc2))
          · intro v hv
            rcases List.mem_append.mp hv with hv | hv
            · exact Reaches.step hedge (hl5 v hv)
            · exact h9 v hv
          · intro v hv x hvx
            rcases List.mem_append.mp hv with hv | hv
            · have := hl6 v hv x hvx
              have hmono : ∀ y, y ∈ domSeen st2 → y ∈ domSeen st' := by
                intro y hy
                rw [h4.1, h3, hfet1, ← hl2.1]
                exact List.mem_append_left _ hy
              exact hmono x this
            · exact h10 v hv x hvx
          · intro u' hu'
            rcases List.mem_cons.mp hu' with rfl | hu'
            · refine Or.inr ?_
              rw [h2]
              exact List.mem_append_left _
                (List.mem_append_right _ (List.mem_cons_self _ _))
            · exact h11 u' hu'

/-- A key in the key list resolves to something. -/
theorem lookupA_isSome_of_mem_dom {α : Type} (l : List (String × α))
    (k : String) (h : k ∈ l.map Prod.fst) : ∃ v, lookupA l k = some v := by
  cases hl : lookupA l k with
  | none => exact absurd ((lookupA_eq_none_iff l k).mp hl) (by simp [h])
  | some v => exact ⟨v, rfl⟩

/-- Core of one fuelled `_load_register` step, stated over the
intermediate state produced after fetching, parsing and recording the new
register. -/
theorem loadSpec_step (dflt : Web) (n : Nat) (hproc : ProcSpec dflt n)
    (url : String) (st st' st2 : LoadState) (doc : RegDoc)
    (items : List (String × Summary))
    (hWF : WFL st) (hfresh : url ∉ domSeen st)
    (hfetch : lookupA dflt url = some doc)
    (hst2 : st2 = LoadState.mk
      (st.seen ++ [(url, Reg.mk url doc.imports items [])])
      (st.fetched ++ [url]))
    (h : processImports dflt n url doc.imports [url] st2 = .ok st') :
    ∃ (Δ : List String) (reg' : Reg),
      st'.fetched = st.fetched ++ url :: Δ ∧
      WFL st' ∧
      (∀ k, k ∈ domSeen st → lookupA st'.seen k = lookupA st.seen k) ∧
      lookupA st'.seen url = some reg' ∧
      (∀ v, v ∈ url :: Δ → Reaches dflt url v) ∧
      (∀ v, v ∈ url :: Δ → ∀ x, ImportsOf dflt v x → x ∈ domSeen st') ∧
      reg'.importedRegisters.filter (fun x => decide (x ∈ url :: Δ)) = Δ ∧
      (∀ x ∈ reg'.importedRegisters, x ∉ url :: Δ → x ∈ domSeen st) := by
  have hseen2 : st2.seen =
      st.seen ++ [(url, Reg.mk url doc.imports items [])] := by
    rw [hst2]
  have hfet2 : st2.fetched = st.fetched ++ [url] := by
    rw [hst2]
  have hurlfet : url ∉ st.fetched := by rw [← hWF.1]; exact hfresh
  have hstnone : lookupA st.seen url = none :=
    (lookupA_eq_none_iff st.seen url).mpr hfresh
  have hdom2 : domSeen st2 = domSeen st ++ [url] := by
    simp [domSeen, hseen2]
  have hWF2 : WFL st2 := by
    refine ⟨?_, ?_, ?_⟩
    · rw [hdom2, hfet2, hWF.1]
    · rw [hfet2, List.nodup_append]
      refine ⟨hWF.2.1, List.nodup_singleton _, ?_⟩
      intro a ha hc
      rcases List.mem_singleton.mp hc with rfl
      exact hurlfet ha
    · intro k reg hk
      rw [hseen2] at hk
      cases hst : lookupA st.seen k with
      | some v =>
        rw [lookupA_append_some _ _ _ _ hst] at hk
        injection hk with hk
        subst hk
        have hold := hWF.2.2 k v hst
        refine ⟨hold.1, hold.2.1, hold.2.2.1, ?_⟩
        intro x hx
        rw [hdom2]
        exact List.mem_append_left _ (hold.2.2.2 x hx)
      | none =>
        rw [lookupA_append_none _ _ _ hst] at hk
        by_cases hku : url = k
        · subst hku
          simp only [lookupA, if_pos rfl] at hk
          injection hk with hk
          subst hk
          refine ⟨rfl, List.nodup_nil, by simp, ?_⟩
          intro x hx
          cases hx
        · simp only [lookupA, if_neg hku] at hk
          cases hk
  have hS2 : lookupA st2.seen url =
      some (Reg.mk url doc.imports items []) := by
    rw [hseen2, lookupA_append_none _ _ _ hstnone]
    simp [lookupA]
  have hinv : ∀ x, x ∈ [url] ↔ (x = url ∨
      x ∈ (Reg.mk url doc.imports items []).importedRegisters) := by
    intro x
    simp
  have himp : ∀ u ∈ doc.imports, ImportsOf dflt url u :=
    fun u hu => ⟨doc, hfetch, hu⟩
  obtain ⟨Δp, A, reg', p1, p2, p3, p4, p5, p6, p7, p8, p9, p10, p11⟩ :=
    hproc url doc.imports [url] st2 st' _ h hWF2 hS2 hinv himp
  have himpA : reg'.importedRegisters = A := by
    rw [p2]
    simp
  have hurlnotA : url ∉ A := by
    intro hc
    exact p8 url hc (List.mem_singleton.mpr rfl)
  refine ⟨Δp, reg', ?_, p4, ?_, p1, ?_, ?_, ?_, ?_⟩
  · rw [p3, hfet2]
    simp [List.append_assoc]
  · intro k hk
    have hkurl : k ≠ url := fun hc => hfresh (hc ▸ hk)
    obtain ⟨v, hv⟩ := lookupA_isSome_of_mem_dom st.seen k hk
    rw [p5 k (by rw [hdom2]; exact List.mem_append_left _ hk) hkurl,
      hseen2, lookupA_append_some _ _ _ _ hv, hv]
  · intro v hv
    rcases List.mem_cons.mp hv with rfl | hv
    · exact Reaches.refl v
    · exact p9 v hv
  · intro v hv x hvx
    rcases List.mem_cons.mp hv with hvu | hv
    · obtain ⟨d, hd, hx⟩ := hvx
      rw [hvu, hfetch] at hd
      injection hd with hd
      subst hd
      rcases p11 x hx with rfl | hmem
      · exact mem_dom_of_lookupA _ _ _ p1
      · exact (p4.2.2 _ reg' p1).2.2.2 x hmem
    · exact p10 v hv x hvx
  · rw [himpA]
    have hstep : A.filter (fun x => decide (x ∈ url :: Δp)) =
        A.filter (fun x => decide (x ∈ Δp)) := by
      apply filter_ext_mem
      intro x hx
      have hxurl : ¬ x = url := by
        intro hc
        exact hurlnotA (hc ▸ hx)
      have hiff : (x ∈ url :: Δp) ↔ (x ∈ Δp) := by
        constructor
        · intro hc
          rcases List.mem_cons.mp hc with hc | hc
          · exact absurd hc hxurl
          · exact hc
        · exact fun hc => List.mem_cons_of_mem _ hc
      exact decide_eq_decide.mpr hiff
    rw [hstep, p6]
  · intro x hx hxmem
    rw [himpA] at hx
    have hxurl : ¬ x = url := fun hc =>
      hxmem (by rw [hc]; exact List.mem_cons_self _ _)
    have hxΔ : x ∉ Δp := fun hc =>
      hxmem (List.mem_cons_of_mem _ hc)
    have hx2 := p7 x hx hxΔ
    rw [hdom2] at hx2
    rcases List.mem_append.mp hx2 with h' | h'
    · exact h'
    · exact absurd (List.mem_singleton.mp h') hxurl

/-- One fuelled `_load_register` step satisfies the load specification
when the import loop satisfies its specification at the previous fuel. -/
theorem loadSpec_succ (dflt : Web) (n : Nat) (hproc : ProcSpec dflt n) :
    LoadSpec dflt (n + 1) := by
  intro url st st' h hWF hfresh
  simp only [loadReg] at h
  cases hfetch : lookupA dflt url with
  | none => simp only [hfetch] at h; cases h
  | some doc =>
    simp only [hfetch] at h
    cases hitems : insertItems url doc.bblocks [] with
    | error e => simp only [hitems] at h; cases h
    | ok items =>
      simp only [hitems, if_true] at h
      exact loadSpec_step dflt n hproc url st st' _ doc items hWF hfresh
        hfetch rfl h

/-- The load and import-loop specifications hold at every fuel. -/
theorem mainSpec (dflt : Web) :
    ∀ fuel, LoadSpec dflt fuel ∧ ProcSpec dflt fuel := by
  intro fuel
  induction fuel with
  | zero =>
    have hload : LoadSpec dflt 0 := by
      intro url st st' h hWF hfresh
      simp [loadReg] at h
    exact ⟨hload, procSpec_of_loadSpec dflt 0 hload⟩
  | succ n ih =>
    have hload : LoadSpec dflt (n + 1) := loadSpec_succ dflt n ih.2
    exact ⟨hload, procSpec_of_loadSpec dflt (n + 1) hload⟩

/-- Processing a found import never changes the key list of the seen
table (only payloads are updated). -/
theorem doFlatten_domSeen (self u : String) (iurls : List String)
    (st : LoadState) :
    domSeen (doFlatten self u iurls st).1 = domSeen st := by
  simp only [doFlatten]
  cases h : lookupA (appendImported st self u).seen u with
  | none =>
    simp only [h]
    exact appendImported_domSeen st self u
  | some regU =>
    simp only [h]
    rw [flattenInto_domSeen, appendImported_domSeen]

/-- Casting a status string never reports fuel exhaustion. -/
theorem castStatus_no_fuel (o : Option String) :
    castStatus o ≠ Except.error LoadErr.outOfFuel := by
  cases o with
  | none => intro h; cases h
  | some s =>
    intro h
    simp only [castStatus] at h
    cases hS : StatusE.ofString s with
    | some v => simp only [hS] at h; cases h
    | none =>
      simp only [hS] at h
      injection h with h
      cases h

/-- Casting an item-class string never reports fuel exhaustion. -/
theorem castItemClass_no_fuel (o : Option String) :
    castItemClass o ≠ Except.error LoadErr.outOfFuel := by
  cases o with
  | none => intro h; cases h
  | some s =>
    intro h
    simp only [castItemClass] at h
    cases hS : ItemClassE.ofString s with
    | some v => simp only [hS] at h; cases h
    | none =>
      simp only [hS] at h
      injection h with h
      cases h

/-- Parsing a summary document never reports fuel exhaustion. -/
theorem parseSummary_no_fuel (d : SummaryDoc) :
    parseSummary d ≠ Except.error LoadErr.outOfFuel := by
  intro h
  simp only [parseSummary] at h
  cases hs : castStatus d.status with
  | error e1 =>
    simp only [hs] at h
    injection h with h
    subst h
    exact castStatus_no_fuel d.status hs
  | ok status =>
    simp only [hs] at h
    cases hc : castItemClass d.itemClass with
    | error e2 =>
      simp only [hc] at h
      injection h with h
      subst h
      exact castItemClass_no_fuel d.itemClass hc
    | ok itemClass =>
      simp only [hc] at h
      cases h

/-- Building the summary table never reports fuel exhaustion. -/
theorem insertItems_no_fuel (regUrl : String) :
    ∀ (l : List SummaryDoc) (acc : List (String × Summary)),
    insertItems regUrl l acc ≠ Except.error LoadErr.outOfFuel := by
  intro l
  induction l with
  | nil => intro acc h; cases h
  | cons d rest ih =>
    intro acc h
    simp only [insertItems] at h
    cases hp : parseSummary d with
    | error e =>
      simp only [hp] at h
      injection h with h
      subst h
      exact parseSummary_no_fuel d hp
    | ok s =>
      simp only [hp] at h
      exact ih _ h

/-- Filtering with a pointwise-weaker predicate keeps at most as many
elements. -/
theorem filter_length_le_of_imp {α : Type} (p q : α → Bool) :
    ∀ l : List α, (∀ x ∈ l, q x = true → p x = true) →
    (l.filter q).length ≤ (l.filter p).length := by
  intro l
  induction l with
  | nil => intro _; exact Nat.le_refl _
  | cons a rest ih =>
    intro h
    have hrest := ih fun x hx => h x (List.mem_cons_of_mem a hx)
    by_cases hq : q a = true
    · rw [List.filter_cons_of_pos hq,
        List.filter_cons_of_pos (h a (List.mem_cons_self a rest) hq)]
      exact Nat.succ_le_succ hrest
    · rw [List.filter_cons_of_neg (by simpa using hq)]
      by_cases hp : p a = true
      · rw [List.filter_cons_of_pos hp]
        exact Nat.le_succ_of_le hrest
      · rw [List.filter_cons_of_neg (by simpa using hp)]
        exact hrest

/-- Filtering with a pointwise-weaker predicate that loses a present
element keeps strictly fewer elements. -/
theorem filter_length_lt_of_drop {α : Type} (p q : α → Bool) :
    ∀ l : List α, (∀ x ∈ l, q x = true → p x = true) →
    ∀ u ∈ l, p u = true → q u = false →
    (l.filter q).length < (l.filter p).length := by
  intro l
  induction l with
  | nil => intro _ u hu; cases hu
  | cons a rest ih =>
    intro h u hu hp hq
    have hmono := filter_length_le_of_imp p q rest
      fun x hx => h x (List.mem_cons_of_mem a hx)
    rcases List.mem_cons.mp hu with rfl | hu
    · rw [List.filter_cons_of_neg (by simp [hq]), List.filter_cons_of_pos hp]
      exact Nat.lt_succ_of_le (hmono)
    · have hrest := ih (fun x hx => h x (List.mem_cons_of_mem a hx)) u hu hp hq
      by_cases hqa : q a = true
      · rw [List.filter_cons_of_pos hqa,
          List.filter_cons_of_pos (h a (List.mem_cons_self a rest) hqa)]
        exact Nat.succ_lt_succ hrest
      · rw [List.filter_cons_of_neg (by simpa using hqa)]
        by_cases hpa : p a = true
        · rw [List.filter_cons_of_pos hpa]
          exact Nat.lt_succ_of_lt hrest
        · rw [List.filter_cons_of_neg (by simpa using hpa)]
          exact hrest

/-- The number of web entries whose URL is not yet in the seen table:
the measure that bounds the remaining recursion depth of
`_load_register`. -/
def unseenC (dflt : Web) (st : LoadState) : Nat :=
  ((dflt.map Prod.fst).filter (fun k => decide (k ∉ domSeen st))).length

/-- The measure never exceeds the size of the web. -/
theorem unseenC_le_length (dflt : Web) (st : LoadState) :
    unseenC dflt st ≤ dflt.length := by
  calc ((dflt.map Prod.fst).filter _).length
      ≤ (dflt.map Prod.fst).length := List.length_filter_le _ _
    _ = dflt.length := List.length_map _ _

/-- The measure never grows as the seen table grows. -/
theorem unseenC_mono (dflt : Web) (st st' : LoadState)
    (h : ∀ k, k ∈ domSeen st → k ∈ domSeen st') :
    unseenC dflt st' ≤ unseenC dflt st := by
  apply filter_length_le_of_imp
  intro x _ hx
  simp only [decide_eq_true_eq] at hx ⊢
  exact fun hc => hx (h x hc)

/-- The measure strictly decreases when a web URL enters the seen
table. -/
theorem unseenC_lt (dflt : Web) (st st' : LoadState) (u : String)
    (hmem : u ∈ dflt.map Prod.fst)
    (hfresh : u ∉ domSeen st) (hnow : u ∈ domSeen st')
    (h : ∀ k, k ∈ domSeen st → k ∈ domSeen st') :
    unseenC dflt st' < unseenC dflt st := by
  apply filter_length_lt_of_drop _ _ _ ?_ u hmem
  · exact decide_eq_true hfresh
  · exact decide_eq_false (not_not_intro hnow)
  · intro x _ hx
    simp only [decide_eq_true_eq] at hx ⊢
    exact fun hc => hx (h x hc)

/-- Seen-key list of a state extended with one new register. -/
theorem domSeen_append_one (st : LoadState) (url : String) (reg : Reg)
    (f : List String) :
    domSeen ⟨st.seen ++ [(url, reg)], f⟩ = domSeen st ++ [url] := by
  simp [domSeen]

/-- The import loop only grows the seen table, given that register
loading at the same fuel does. -/
theorem domGrowProc (dflt : Web) (fuel : Nat)
    (hL : ∀ (ld : Bool) (url : String) (st st' : LoadState),
      loadReg dflt dflt ld fuel url st = .ok st' →
      (∀ k, k ∈ domSeen st → k ∈ domSeen st') ∧ url ∈ domSeen st') :
    ∀ (imports : List String) (self : String) (iurls : List String)
      (st st' : LoadState),
      processImports dflt fuel self imports iurls st = .ok st' →
      ∀ k, k ∈ domSeen st → k ∈ domSeen st' := by
  intro imports
  induction imports with
  | nil =>
    intro self iurls st st' h k hk
    simp only [processImports] at h
    injection h with h
    rw [← h]
    exact hk
  | cons u rest ih =>
    intro self iurls st st' h k hk
    simp only [processImports] at h
    by_cases hu : u ∈ iurls
    · rw [if_pos hu] at h
      exact ih self iurls st st' h k hk
    · rw [if_neg hu] at h
      cases hseen : lookupA st.seen u with
      | some regU =>
        simp only [hseen] at h
        refine ih self _ _ st' h k ?_
        rw [doFlatten_domSeen]
        exact hk
      | none =>
        simp only [hseen] at h
        cases hload : loadReg dflt dflt true fuel u st with
        | error e => simp only [hload] at h; cases h
        | ok st2 =>
          simp only [hload] at h
          refine ih self _ _ st' h k ?_
          rw [doFlatten_domSeen]
          exact (hL true u st st2 hload).1 k hk

/-- Loading a register only grows the seen table, and puts its own URL
there. -/
theorem domGrowLoad (dflt : Web) :
    ∀ (fuel : Nat) (ld : Bool) (url : String) (st st' : LoadState),
      loadReg dflt dflt ld fuel url st = .ok st' →
      (∀ k, k ∈ domSeen st → k ∈ domSeen st') ∧ url ∈ domSeen st' := by
  intro fuel
  induction fuel with
  | zero => intro ld url st st' h; simp [loadReg] at h
  | succ n ih =>
    intro ld url st st' h
    simp only [loadReg] at h
    cases hfetch : lookupA dflt url with
    | none => simp only [hfetch] at h; cases h
    | some doc =>
      simp only [hfetch] at h
      cases hitems : insertItems url doc.bblocks [] with
      | error e => simp only [hitems] at h; cases h
      | ok items =>
        simp only [hitems] at h
        cases ld with
        | false =>
          simp only [Bool.false_eq_true, if_false] at h
          injection h with h
          constructor
          · intro k hk
            rw [← h, domSeen_append_one]
            exact List.mem_append_left _ hk
          · rw [← h, domSeen_append_one]
            exact List.mem_append_right _ (List.mem_singleton.mpr rfl)
        | true =>
          simp only [if_true] at h
          have hgrow := domGrowProc dflt n ih doc.imports url [url]
            _ st' h
          constructor
          · intro k hk
            refine hgrow k ?_
            rw [domSeen_append_one]
            exact List.mem_append_left _ hk
          · refine hgrow url ?_
            rw [domSeen_append_one]
            exact List.mem_append_right _ (List.mem_singleton.mpr rfl)

/-- With fuel exceeding the number of unseen web URLs, the import loop
never reports fuel exhaustion: every recursive load consumes one unseen
web URL. -/
theorem procFuelOk (dflt : Web) :
    ∀ (fuel : Nat) (imports : List String) (self : String)
      (iurls : List String) (st : LoadState),
      unseenC dflt st < fuel →
      processImports dflt fuel self imports iurls st ≠
        Except.error LoadErr.outOfFuel := by
  intro fuel
  induction fuel with
  | zero =>
    intro imports self iurls st hlt
    exact absurd hlt (Nat.not_lt_zero _)
  | succ n ih =>
    intro imports
    induction imports with
    | nil =>
      intro self iurls st hlt h
      simp only [processImports] at h
      cases h
    | cons u rest ihr =>
      intro self iurls st hlt h
      simp only [processImports] at h
      by_cases hu : u ∈ iurls
      · rw [if_pos hu] at h
        exact ihr self iurls st hlt h
      · rw [if_neg hu] at h
        cases hseen : lookupA st.seen u with
        | some regU =>
          simp only [hseen] at h
          have hm : unseenC dflt (doFlatten self u (u :: iurls) st).1 =
              unseenC dflt st := by
            simp only [unseenC, doFlatten_domSeen]
          exact ihr self _ _ (by rw [hm]; exact hlt) h
        | none =>
          simp only [hseen] at h
          have hufresh : u ∉ domSeen st := (lookupA_eq_none_iff _ _).mp hseen
          cases hload : loadReg dflt dflt true (n + 1) u st with
          | error e =>
            simp only [hload] at h
            injection h with h
            subst h
            simp only [loadReg] at hload
            cases hfetch : lookupA dflt u with
            | none =>
              simp only [hfetch] at hload
              injection hload with hload
              cases hload
            | some doc =>
              simp only [hfetch] at hload
              cases hitems : insertItems u doc.bblocks [] with
              | error e2 =>
                simp only [hitems] at hload
                injection hload with hload
                subst hload
                exact insertItems_no_fuel u doc.bblocks [] hitems
              | ok items =>
                simp only [hitems, if_true] at hload
                have hukey : u ∈ dflt.map Prod.fst :=
                  mem_dom_of_lookupA dflt u doc hfetch
                have hlt2 : unseenC dflt
                    (⟨st.seen ++ [(u, ⟨u, doc.imports, items, []⟩)],
                      st.fetched ++ [u]⟩ : LoadState) < n := by
                  have hstep := unseenC_lt dflt st
                    ⟨st.seen ++ [(u, ⟨u, doc.imports, items, []⟩)],
                      st.fetched ++ [u]⟩ u hukey hufresh
                    (by rw [domSeen_append_one]
                        exact List.mem_append_right _
                          (List.mem_singleton.mpr rfl))
                    (by intro k hk
                        rw [domSeen_append_one]
                        exact List.mem_append_left _ hk)
                  have hle : unseenC dflt st ≤ n := Nat.lt_succ_iff.mp hlt
                  exact Nat.lt_of_lt_of_le hstep hle
                exact ih doc.imports u [u] _ hlt2 hload
          | ok st2 =>
            simp only [hload] at h
            have hg := domGrowLoad dflt (n + 1) true u st st2 hload
            have hle : unseenC dflt st2 ≤ unseenC dflt st :=
              unseenC_mono dflt st st2 hg.1
            have hm : unseenC dflt (doFlatten self u (u :: iurls) st2).1 =
                unseenC dflt st2 := by
              simp only [unseenC, doFlatten_domSeen]
            refine ihr self _ _ ?_ h
            rw [hm]
            exact Nat.lt_of_le_of_lt hle hlt

/-- `load_register` always terminates: its fuel bound covers the deepest
possible recursion, which adds one distinct web URL to the seen table at
every level. -/
theorem load_register_never_out_of_fuel (dflt loader : Web) (ld : Bool)
    (url : String) :
    load_register dflt loader ld url ≠ Except.error LoadErr.outOfFuel := by
  intro h
  simp only [load_register, loadReg] at h
  cases hfetch : lookupA loader url with
  | none =>
    simp only [hfetch] at h
    injection h with h
    cases h
  | some doc =>
    simp only [hfetch] at h
    cases hitems : insertItems url doc.bblocks [] with
    | error e =>
      simp only [hitems] at h
      injection h with h
      subst h
      exact insertItems_no_fuel url doc.bblocks [] hitems
    | ok items =>
      simp only [hitems] at h
      cases ld with
      | false =>
        simp only [Bool.false_eq_true, if_false] at h
        cases h
      | true =>
        simp only [if_true] at h
        have hlt : unseenC dflt
            (⟨[] ++ [(url, ⟨url, doc.imports, items, []⟩)],
              [] ++ [url]⟩ : LoadState) < dflt.length + 1 :=
          Nat.lt_succ_of_le (unseenC_le_length dflt _)
        exact procFuelOk dflt (dflt.length + 1) doc.imports url [url]
          _ hlt h

/-- What a successful dependency-loading `load_register` run produces:
the root register's imported-register list is exactly the fetch-order
tail, and membership in it is exactly strict reachability along import
edges. -/
theorem load_register_ok_spec (dflt : Web) (url : String) (st' : LoadState)
    (h : load_register dflt dflt true url = Except.ok st') :
    ∃ reg', lookupA st'.seen url = some reg' ∧
      st'.fetched = url :: reg'.importedRegisters ∧
      st'.fetched.Nodup ∧
      (∀ v, v ∈ reg'.importedRegisters ↔
        (Reaches dflt url v ∧ ¬ v = url)) := by
  have hload := (mainSpec dflt (dflt.length + 2)).1
  have hWF0 : WFL ⟨[], []⟩ := by
    refine ⟨rfl, List.nodup_nil, ?_⟩
    intro k reg hk
    simp [lookupA] at hk
  have hfresh0 : url ∉ domSeen (⟨[], []⟩ : LoadState) := by
    simp [domSeen]
  simp only [load_register] at h
  obtain ⟨Δ, reg', q1, q2, q3, q4, q5, q6, q7, q8⟩ :=
    hload url ⟨[], []⟩ st' h hWF0 hfresh0
  have hf2 : st'.fetched = url :: Δ := by simpa using q1
  have hall : ∀ x ∈ reg'.importedRegisters, x ∈ url :: Δ := by
    intro x hx
    by_contra hc
    have hj := q8 x hx hc
    simp [domSeen] at hj
  have himpΔ : reg'.importedRegisters = Δ := by
    rw [← q7]
    exact (List.filter_eq_self.mpr fun a ha =>
      decide_eq_true (hall a ha)).symm
  have hnodup : st'.fetched.Nodup := q2.2.1
  have hndcons : (url :: Δ).Nodup := hf2 ▸ hnodup
  have hurlΔ : url ∉ Δ := (List.nodup_cons.mp hndcons).1
  refine ⟨reg', q4, ?_, hnodup, ?_⟩
  · rw [hf2, himpΔ]
  · intro v
    constructor
    · intro hv
      rw [himpΔ] at hv
      refine ⟨q5 v (List.mem_cons_of_mem _ hv), ?_⟩
      intro hc
      rw [hc] at hv
      exact hurlΔ hv
    · intro hvr
      obtain ⟨hr, hne⟩ := hvr
      have hclosed : ∀ a ∈ url :: Δ, ∀ b,
          ImportsOf dflt a b → b ∈ url :: Δ := by
        intro a ha b hab
        have hb := q6 a ha b hab
        rw [q2.1, hf2] at hb
        exact hb
      have hvS : v ∈ url :: Δ :=
        reaches_mem_closed hclosed hr (List.mem_cons_self url Δ)
      rw [himpΔ]
      rcases List.mem_cons.mp hvS with hc | hc
      · exact absurd hc hne
      · exact hc

/-- A registry web with a duplicate import, a diamond and a cycle:
register a imports b twice, c, and itself; c closes a cycle back to a. -/
def demoWeb : Web :=
  [("a", { imports := ["b", "c", "b", "a"] }),
   ("b", { imports := ["d"] }),
   ("c", { imports := ["d", "a"] }),
   ("d", { imports := [] })]

/-- The traversal state `load_register` produces on `demoWeb` from
register a. -/
def demoSt : LoadState :=
  ⟨[("a", ⟨"a", ["b", "c", "b", "a"], [], ["b", "d", "c"]⟩),
    ("b", ⟨"b", ["d"], [], ["d"]⟩),
    ("d", ⟨"d", [], [], []⟩),
    ("c", ⟨"c", ["d", "a"], [], ["d", "a", "b"]⟩)],
   ["a", "b", "d", "c"]⟩

/-- The root register loaded from `demoWeb`. -/
def demoRegA : Reg := ⟨"a", ["b", "c", "b", "a"], [], ["b", "d", "c"]⟩

/-- Concrete evaluation of `load_register` on `demoWeb`. -/
theorem demoSt_eval : load_register demoWeb demoWeb true "a" =
    Except.ok demoSt := by
  simp [load_register, loadReg, processImports, doFlatten, flattenInto,
    appendImported, insertItems, lookupA, updateA, updEntry, demoWeb, demoSt]

/-- C2: `load_register` with dependency loading terminates on every
registry web — even with duplicate, diamond or cyclic imports — fetches
each URL at most once, and the root register's imported-register list is
exactly the fetch-order tail: each transitively reachable register other
than the root appears exactly once, in first-seen depth-first order. -/
theorem c2_load_fetch_once_order (dflt : Web) (url : String) :
    load_register dflt dflt true url ≠ Except.error LoadErr.outOfFuel ∧
    ∀ st', load_register dflt dflt true url = Except.ok st' →
      st'.fetched.Nodup ∧
      ∃ reg', lookupA st'.seen url = some reg' ∧
        st'.fetched = url :: reg'.importedRegisters ∧
        reg'.importedRegisters.Nodup ∧
        (∀ v, v ∈ reg'.importedRegisters ↔
          (Reaches dflt url v ∧ ¬ v = url)) := by
  refine ⟨load_register_never_out_of_fuel dflt dflt true url, ?_⟩
  intro st' h
  obtain ⟨reg', hr, hf, hnd, hmem⟩ := load_register_ok_spec dflt url st' h
  refine ⟨hnd, reg', hr, hf, ?_, hmem⟩
  have hnd2 := hf ▸ hnd
  exact (List.nodup_cons.mp hnd2).2

/-- Witness for C2 on the duplicate/diamond/cycle web `demoWeb`. -/
theorem c2_load_fetch_once_order_witness :
    demoSt.fetched.Nodup ∧
    ∃ reg', lookupA demoSt.seen "a" = some reg' ∧
      demoSt.fetched = "a" :: reg'.importedRegisters ∧
      reg'.importedRegisters.Nodup ∧
      (∀ v, v ∈ reg'.importedRegisters ↔
        (Reaches demoWeb "a" v ∧ ¬ v = "a")) :=
  (c2_load_fetch_once_order demoWeb "a").2 demoSt demoSt_eval

/-- C10: a register returned by a dependency-loading `load_register`
never lists itself among its imported registers — not via a declared
self-import and not via an import cycle — because the per-register
duplicate-URL set starts out holding the register's own URL. -/
theorem c10_no_self_import (dflt : Web) (url : String) (st' : LoadState)
    (reg' : Reg) (h : load_register dflt dflt true url = Except.ok st')
    (hreg : lookupA st'.seen url = some reg') :
    url ∉ reg'.importedRegisters := by
  obtain ⟨reg2, hr2, hf, hnd, hmem⟩ := load_register_ok_spec dflt url st' h
  rw [hreg] at hr2
  injection hr2 with hr2
  intro hc
  rw [hr2] at hc
  exact ((hmem url).mp hc).2 rfl

/-- Witness for C10: on `demoWeb`, register a declares itself as one of
its own imports and sits on a cycle through c, yet does not appear in
its own imported-register list. -/
theorem c10_no_self_import_witness :
    "a" ∉ demoRegA.importedRegisters :=
  c10_no_self_import demoWeb "a" demoSt demoRegA demoSt_eval rfl
